import Mathlib

/-!
Verification development for the block-processing engine of pyethereum
(`src/ethereum/blocks.py`), as a shallow embedding in Lean 4.

Bytes are modelled as `List Nat` (each entry a byte value); arbitrary-
precision Python integers as `Nat` / `Int`; Python dicts as insertion-ordered
association lists.  External collaborators (RLP codec, keccak, the trie, the
ethash functions) are out of scope of the source file and are either
parameterised over or modelled concretely following the narrow interface
the spec's section 6 describes.
-/

/-- Byte strings: a list of byte values. -/
abbrev Addr := List Nat

/-- Fuel-bounded big-endian digit extraction (structural recursion so that
concrete computations reduce in the kernel). -/
def toBEAux : Nat → Nat → List Nat
  | 0, _ => []
  | fuel + 1, n => if n = 0 then [] else toBEAux fuel (n / 256) ++ [n % 256]

/-- Minimal big-endian bytes of a natural number; zero is the empty string
(`utils.int_to_big_endian` / `utils.encode_int`). -/
def toBE (n : Nat) : List Nat := toBEAux n n

/-- Big-endian bytes to integer (`utils.big_endian_to_int`). -/
def fromBE (l : List Nat) : Nat := l.foldl (fun acc b => acc * 256 + b) 0

/-- Left-pad a byte string with zero bytes to length `n` (`utils.zpad`);
a longer string is returned unchanged. -/
def zpad (b : List Nat) (n : Nat) : List Nat := List.replicate (n - b.length) 0 ++ b

/-- RLP encoding of a single byte string (the external RLP codec, per the
spec: a one-byte string below 0x80 is itself; otherwise a length prefix). -/
def rlpEncBytes (b : List Nat) : List Nat :=
  match b with
  | [x] => if x < 128 then [x] else [129, x]
  | _ =>
    if b.length < 56 then (128 + b.length) :: b
    else (183 + (toBE b.length).length) :: (toBE b.length ++ b)

/-- RLP encoding of an unsigned integer: RLP of its minimal big-endian bytes. -/
def rlpEncInt (n : Nat) : List Nat := rlpEncBytes (toBE n)

/-- RLP decoding of a single-string RLP item as a big-endian integer
(`rlp.decode(·, big_endian_int)`), on canonical encodings. -/
def rlpDecInt (l : List Nat) : Nat :=
  match l with
  | [] => 0
  | b :: rest =>
    if b < 128 then b
    else if b ≤ 183 then fromBE (rest.take (b - 128))
    else fromBE (rest.drop ((toBE (fromBE (rest.take (b - 183)))).length))

/- ### Consensus constants (`blocks.py` lines 59-89) -/

def GENESIS_DIFFICULTY : Nat := 131072

def GENESIS_GAS_LIMIT : Nat := 3141592

def GENESIS_PREVHASH : List Nat := List.replicate 32 0

def MIN_GAS_LIMIT : Nat := 125000

def GASLIMIT_EMA_FACTOR : Nat := 1024

def GASLIMIT_ADJMAX_FACTOR : Nat := 1024

def BLKLIM_FACTOR_NOM : Nat := 3

def BLKLIM_FACTOR_DEN : Nat := 2

/-- `BLOCK_REWARD = 1500 * utils.denoms.finney`, in wei. -/
def BLOCK_REWARD : Nat := 1500 * 10 ^ 15

def UNCLE_DEPTH_PENALTY_FACTOR : Nat := 8

/-- `NEPHEW_REWARD = BLOCK_REWARD / 32` (exact: 32 divides BLOCK_REWARD). -/
def NEPHEW_REWARD : Nat := BLOCK_REWARD / 32

def MAX_UNCLE_DEPTH : Nat := 6

def MAX_UNCLES : Nat := 2

def DIFF_ADJUSTMENT_CUTOFF : Nat := 8

def BLOCK_DIFF_FACTOR : Nat := 2048

def MIN_DIFF : Nat := 131072

/-- The parent-header fields the pure consensus rules read. -/
structure ParentHeader where
  difficulty : Nat
  timestamp : Nat
  gas_limit : Nat
  gas_used : Nat
  deriving DecidableEq

/-- `calc_difficulty(parent, timestamp)` (`blocks.py` lines 93-99).
Python subtraction of timestamps may be negative, so the comparison is on
integers. -/
def calc_difficulty (parent : ParentHeader) (timestamp : Nat) : Int :=
  let offset : Nat := parent.difficulty / BLOCK_DIFF_FACTOR
  let sign : Int :=
    if (timestamp : Int) - parent.timestamp < DIFF_ADJUSTMENT_CUTOFF then 1 else -1
  max ((parent.difficulty : Int) + offset * sign)
    (min (parent.difficulty : Int) (MIN_DIFF : Int))

/-- `calc_gaslimit(parent)` (`blocks.py` lines 1288-1297). -/
def calc_gaslimit (parent : ParentHeader) : Nat :=
  let decay := parent.gas_limit / GASLIMIT_EMA_FACTOR
  let new_contribution :=
    parent.gas_used * BLKLIM_FACTOR_NOM / BLKLIM_FACTOR_DEN / GASLIMIT_EMA_FACTOR
  let gl := max (parent.gas_limit - decay + new_contribution) MIN_GAS_LIMIT
  if gl < GENESIS_GAS_LIMIT then min GENESIS_GAS_LIMIT (parent.gas_limit + decay)
  else gl

/-- `check_gaslimit(parent, gas_limit)` (`blocks.py` lines 1300-1304). -/
def check_gaslimit (parent : ParentHeader) (gas_limit : Nat) : Bool :=
  (((gas_limit : Int) - parent.gas_limit).natAbs ≤ parent.gas_limit / GASLIMIT_EMA_FACTOR)
    && (MIN_GAS_LIMIT ≤ gas_limit)

/- ### Proof of work (`BlockHeader.seed` / `BlockHeader.check_pow`,
`blocks.py` lines 313-348)

The ethash functions (`get_cache_size`, `get_full_size`, `mkcache`,
`hashimoto_light`) and keccak (`utils.sha3`) are external collaborators;
the model is parameterised over them.  `get_cache_memoized(seed, size)`
is deterministic in `(seed, size)` (it calls `mkcache(size, seed)`), so the
cache is represented by that pair. -/

def EPOCH_LENGTH : Nat := 30000

/-- The header fields `check_pow` reads; `mining_hash` (a keccak of the RLP
serialization without mixhash and nonce) is carried as given data. -/
structure HeaderPW where
  mixhash : List Nat
  nonce : List Nat
  difficulty : Nat
  number : Nat
  mining_hash : List Nat
  deriving DecidableEq

/-- `BlockHeader.seed`: iterate keccak `number // EPOCH_LENGTH` times on 32
zero bytes. -/
def pow_seed (sha3 : List Nat → List Nat) (number : Nat) : List Nat :=
  Nat.rec (List.replicate 32 0) (fun _ s => sha3 s) (number / EPOCH_LENGTH)

/-- `BlockHeader.check_pow(nonce=None)`.  `nonce or self.nonce` treats the
empty byte string as falsy; the length check reads `self.nonce`; the final
return value is `big_endian_to_int(result) <= 2**256 / (diff or 1)`
(integer division). -/
def check_pow (sha3 : List Nat → List Nat) (get_cache_size get_full_size : Nat → Nat)
    (hashimoto_light : Nat → List Nat × Nat → List Nat → List Nat →
      List Nat × List Nat)
    (h : HeaderPW) (nonceArg : Option (List Nat)) : Except String Bool :=
  let nonce := match nonceArg with
    | none => h.nonce
    | some n => if n = [] then h.nonce else n
  if h.mixhash.length ≠ 32 ∨ h.nonce.length ≠ 8 then
    Except.error "Bad mixhash or nonce length"
  else
    let header_hash := h.mining_hash
    let seed := pow_seed sha3 h.number
    let current_cache_size := get_cache_size h.number
    let cache := (seed, current_cache_size)
    let current_full_size := get_full_size h.number
    let mining_output := hashimoto_light current_full_size cache header_hash nonce
    let diff := h.difficulty
    if mining_output.1 ≠ h.mixhash then Except.ok false
    else Except.ok
      (fromBE mining_output.2 ≤ 2 ^ 256 / (if diff = 0 then 1 else diff))

/- ### The journaled state cache (`Block`, `blocks.py` lines 435-1164)

`Block.caches` is a dict of dicts: the fixed partitions `'balance'`,
`'nonce'`, `'code'`, `'storage'` (the storage-root field cache) and `'all'`,
plus one dynamically created partition `b'storage:' + addr` per touched
account.  Python dicts are modelled as insertion-ordered association lists;
`alUpdate` overwrites in place or appends, `alErase` is `del`. -/

/-- Association-list lookup (dict `get`). -/
def alLookup {α β : Type} [DecidableEq α] : List (α × β) → α → Option β
  | [], _ => none
  | (k, v) :: t, a => if k = a then some v else alLookup t a

/-- Association-list write (dict `d[k] = v`): overwrite in place, else append. -/
def alUpdate {α β : Type} [DecidableEq α] : List (α × β) → α → β → List (α × β)
  | [], a, b => [(a, b)]
  | (k, v) :: t, a, b => if k = a then (a, b) :: t else (k, v) :: alUpdate t a b

/-- Association-list delete (dict `del d[k]`). -/
def alErase {α β : Type} [DecidableEq α] : List (α × β) → α → List (α × β)
  | [], _ => []
  | (k, v) :: t, a => if k = a then t else (k, v) :: alErase t a

/-- Cache partition names: the five fixed keys of `Block.caches` plus the
dynamic `b'storage:' + addr` namespaces.  `storage` is the source's
`'storage'` field cache (account storage roots); `storageOf a` is the
per-account slot cache `b'storage:' + a`. -/
inductive CName where
  | balance
  | nonce
  | code
  | storage
  | all
  | storageOf (a : Addr)
  deriving DecidableEq

/-- Keys inside a cache partition: account addresses (field caches and
`'all'`) or storage indices (slot caches). -/
inductive CKey where
  | addr (a : Addr)
  | idx (i : Nat)
  deriving DecidableEq

/-- Cached values: integers (balance, nonce, storage slots), byte strings
(code, storage roots) or Python `True` (the `'all'` partition). -/
inductive CVal where
  | num (n : Nat)
  | bs (b : List Nat)
  | tt
  deriving DecidableEq

/-- One journal entry `[cache, index, prev, value]`
(`Block.set_and_journal`). -/
abbrev JEntry := CName × CKey × Option CVal × CVal

/-- `Block.caches`: a dict from partition name to a dict of cached values. -/
abbrev Caches := List (CName × List (CKey × CVal))

/-- `self.caches[cache].get(index, None)`. -/
def cacheGet (C : Caches) (c : CName) (k : CKey) : Option CVal :=
  match alLookup C c with
  | none => none
  | some d => alLookup d k

/-- `self.caches[cache][index] = value`.  Every call site of the source
guarantees the inner dict exists; writing to a missing partition creates it. -/
def cacheSet (C : Caches) (c : CName) (k : CKey) (v : CVal) : Caches :=
  alUpdate C c (alUpdate ((alLookup C c).getD []) k v)

/-- `del self.caches[cache][index]` (used by `revert`). -/
def cacheDel (C : Caches) (c : CName) (k : CKey) : Caches :=
  match alLookup C c with
  | none => C
  | some d => alUpdate C c (alErase d k)

/-- `CACHE_KEY in self.caches`. -/
def dictMem (C : Caches) (c : CName) : Bool := (alLookup C c).isSome

/-- The account record as it lives in the state trie.  The source account is
`(nonce, balance, storage_root, code_hash)` with the storage trie and the
code blob held externally under their hashes; the model inlines the storage
trie (a dict from 32-byte key to RLP-encoded value) and the code bytes. -/
structure AccountM where
  nonce : Nat
  balance : Nat
  storage : List (List Nat × List Nat)
  code : List Nat
  deriving DecidableEq

/-- `Account.blank_account`: zero nonce and balance, blank storage, empty
code. -/
def blank_account : AccountM := ⟨0, 0, [], []⟩

/-- The mutable `Block` state the cache, journal, snapshot and revert
operations touch.  The journal is kept most-recent-first (the source appends
to and pops from the end of a Python list).  `txs` abstracts the
transactions trie (`snapshot`/`revert` store and restore it); `stateTrie` is
the state trie as a map from address to account record (revert restores the
snapshot root, which denotes the snapshot-time trie value: trie nodes are
content-addressed and never overwritten). -/
structure BState where
  caches : Caches
  journal : List JEntry
  suicides : List Addr
  logs : List Nat
  refunds : Nat
  gas_used : Nat
  ether_delta : Int
  transaction_count : Nat
  txs : Nat
  stateTrie : List (Addr × AccountM)
  deriving DecidableEq

/-- `Block.__init__`'s cache dict (lines 452-458). -/
def init_caches : Caches :=
  [(CName.balance, []), (CName.nonce, []), (CName.code, []),
   (CName.storage, []), (CName.all, [])]

/-- `Block.reset_cache`'s cache dict (lines 1095-1104): the dynamically
created storage namespaces are dropped. -/
def reset_caches : Caches :=
  [(CName.all, []), (CName.balance, []), (CName.nonce, []),
   (CName.code, []), (CName.storage, [])]

/-- `Block.set_and_journal(cache, index, value)` (lines 773-777): a no-op
when the cached value already equals `value`, otherwise journal the previous
value (absent = `None`) and write. -/
def set_and_journal (s : BState) (c : CName) (k : CKey) (v : CVal) : BState :=
  let prev := cacheGet s.caches c k
  if prev = some v then s
  else { s with journal := (c, k, prev, v) :: s.journal,
                caches := cacheSet s.caches c k v }

/-- The four account-field partitions `_set_acct_item` writes. -/
inductive AcctFld where
  | balance
  | nonce
  | code
  | storage
  deriving DecidableEq

def AcctFld.toCName : AcctFld → CName
  | .balance => CName.balance
  | .nonce => CName.nonce
  | .code => CName.code
  | .storage => CName.storage

/-- `Block._set_acct_item(address, param, value)` (lines 759-771): journal
the field write, then mark the address touched in `'all'`. -/
def set_acct_item (s : BState) (a : Addr) (f : AcctFld) (v : CVal) : BState :=
  set_and_journal (set_and_journal s f.toCName (CKey.addr a) v)
    CName.all (CKey.addr a) CVal.tt

/-- `Block.set_storage_data(address, index, value)` (lines 978-992): create
the `b'storage:' + addr` namespace lazily (marking the address touched),
then journal the slot write. -/
def set_storage_data (s : BState) (a : Addr) (i : Nat) (v : Nat) : BState :=
  let s1 :=
    if dictMem s.caches (CName.storageOf a) then s
    else set_and_journal
      { s with caches := alUpdate s.caches (CName.storageOf a) [] }
      CName.all (CKey.addr a) CVal.tt
  set_and_journal s1 (CName.storageOf a) (CKey.idx i) (CVal.num v)

/-- `Block._get_acct(address)`: read the account from the state trie,
blank when absent (the cache is ignored). -/
def get_acct (s : BState) (a : Addr) : AccountM :=
  (alLookup s.stateTrie a).getD blank_account

/-- The account field read `_get_acct_item` falls back to on a cache miss.
The `storage` branch caches the account's storage root; the inline-storage
model has no root bytes and no verified path reads that branch (the only
writer of the `'storage'` field cache in the source is `reset_storage`,
which writes `b''`, the blank root). -/
def underlying_item (s : BState) (a : Addr) : AcctFld → CVal
  | .balance => CVal.num (get_acct s a).balance
  | .nonce => CVal.num (get_acct s a).nonce
  | .code => CVal.bs (get_acct s a).code
  | .storage => CVal.bs []

/-- `Block._get_acct_item(address, param)` (lines 741-757): return the cache
hit, else read the account and populate the cache (an unjournaled
read-through fill). -/
def get_acct_item (s : BState) (a : Addr) (f : AcctFld) : CVal × BState :=
  match cacheGet s.caches f.toCName (CKey.addr a) with
  | some v => (v, s)
  | none =>
    let v := underlying_item s a f
    (v, { s with caches := cacheSet s.caches f.toCName (CKey.addr a) v })

/-- Numeric view of a cached value (the source is untyped; the numeric field
caches only ever hold integers). -/
def CVal.toNat : CVal → Nat
  | .num n => n
  | _ => 0

/-- `Block._delta_item(address, param, value)` (lines 779-795): read the
current value, add the (possibly negative) delta; below zero return `False`
without writing; otherwise write the sum mod `2**256` and return `True`. -/
def delta_item (s : BState) (a : Addr) (f : AcctFld) (d : Int) : Bool × BState :=
  let r := get_acct_item s a f
  let new_value : Int := (r.1.toNat : Int) + d
  if new_value < 0 then (false, r.2)
  else (true, set_acct_item r.2 a f (CVal.num (new_value.toNat % 2 ^ 256)))

/-- `Block.get_balance` as a value (the read-through fill does not change
the returned value). -/
def get_balance (s : BState) (a : Addr) : Nat := (get_acct_item s a .balance).1.toNat

/-- `Block.delta_balance(address, value)`. -/
def delta_balance (s : BState) (a : Addr) (d : Int) : Bool × BState :=
  delta_item s a .balance d

/-- `Block.increment_nonce(address)`. -/
def increment_nonce (s : BState) (a : Addr) : Bool × BState :=
  delta_item s a .nonce 1

/-- `Block.decrement_nonce(address)`. -/
def decrement_nonce (s : BState) (a : Addr) : Bool × BState :=
  delta_item s a .nonce (-1)

/-- `Block.transfer_value(from_addr, to_addr, value)` (lines 911-924):
debit the sender; only if that succeeds, credit the receiver. -/
def transfer_value (s : BState) (from_addr to_addr : Addr) (value : Nat) :
    Bool × BState :=
  let r := delta_balance s from_addr (-(value : Int))
  if r.1 then delta_balance r.2 to_addr (value : Int) else (false, r.2)

/-- Lexicographic comparison of byte strings (Python `bytes` ordering). -/
def lexLe : List Nat → List Nat → Bool
  | [], _ => true
  | _ :: _, [] => false
  | a :: as, b :: bs => if a < b then true else if a = b then lexLe as bs else false

/-- Insertion step of insertion sort by `lexLe`. -/
def insertSorted (a : Addr) : List Addr → List Addr
  | [] => [a]
  | b :: t => if lexLe a b then a :: b :: t else b :: insertSorted a t

/-- `sorted(...)` over addresses. -/
def sortAddrs (l : List Addr) : List Addr := l.foldr insertSorted []

/-- Apply one cached account field to an account record (`setattr(acct,
field, v)` in `commit_state`).  The `'storage'` field cache only ever holds
`b''` (written by `reset_storage`), the blank root, which denotes the empty
storage trie; a value of the wrong shape for a field is unreachable in the
source and leaves the record unchanged. -/
def applyFld (C : Caches) (a : Addr) (acct : AccountM) (f : AcctFld) : AccountM :=
  match cacheGet C f.toCName (CKey.addr a) with
  | none => acct
  | some v =>
    match f, v with
    | .balance, .num n => { acct with balance := n }
    | .nonce, .num n => { acct with nonce := n }
    | .code, .bs b => { acct with code := b }
    | .storage, _ => { acct with storage := [] }
    | _, _ => acct

/-- The storage-slot loop of `commit_state`: for each cached slot, write
`rlp(v)` under the 32-byte zero-padded big-endian key, or delete the key
when the value is zero. -/
def commit_storage (cache : List (CKey × CVal)) (st : List (List Nat × List Nat)) :
    List (List Nat × List Nat) :=
  cache.foldl (fun t kv =>
    match kv with
    | (CKey.idx k, CVal.num v) =>
      let enckey := zpad (toBE k) 32
      if v ≠ 0 then alUpdate t enckey (rlpEncInt v) else alErase t enckey
    | _ => t) st

/-- The per-address body of `commit_state` (lines 1013-1033): load the
account from the (evolving) state trie, apply the cached fields in source
order, rebuild the storage trie from the slot cache, write the account
back. -/
def commit_addr (s : BState) (t : List (Addr × AccountM)) (a : Addr) :
    List (Addr × AccountM) :=
  let acct := (alLookup t a).getD blank_account
  let acct := applyFld s.caches a acct .balance
  let acct := applyFld s.caches a acct .nonce
  let acct := applyFld s.caches a acct .code
  let acct := applyFld s.caches a acct .storage
  let sto := commit_storage ((alLookup s.caches (CName.storageOf a)).getD [])
    acct.storage
  let acct := { acct with storage := sto }
  alUpdate t a acct

/-- `sorted(list(self.caches['all'].keys()))`: the touched addresses in
ascending byte order (the `'all'` keys are always addresses). -/
def all_addrs (s : BState) : List Addr :=
  sortAddrs (((alLookup s.caches CName.all).getD []).filterMap (fun kv =>
    match kv.1 with
    | CKey.addr a => some a
    | _ => none))

/-- `Block.commit_state()` (lines 1005-1035): a no-op on an empty journal;
otherwise commit every touched address and `reset_cache()`. -/
def commit_state (s : BState) : BState :=
  if s.journal = [] then s
  else
    { s with stateTrie := (all_addrs s).foldl (commit_addr s) s.stateTrie,
             caches := reset_caches,
             journal := [] }

/-- `Block.snapshot()` (lines 1106-1121).  The source also stores references
to the live `suicides`, `logs` and `journal` lists; under the cache
mutations considered here those references alias the current lists, which
`revert` reads, so only the recorded sizes and values are kept. -/
structure Snapshot where
  state : List (Addr × AccountM)
  gas : Nat
  txs : Nat
  txcount : Nat
  suicides_size : Nat
  logs_size : Nat
  refunds : Nat
  journal_size : Nat
  ether_delta : Int
  deriving DecidableEq

def snapshot (s : BState) : Snapshot :=
  ⟨s.stateTrie, s.gas_used, s.txs, s.transaction_count, s.suicides.length,
    s.logs.length, s.refunds, s.journal.length, s.ether_delta⟩

/-- Undo one popped journal entry: restore `prev`, or delete the entry when
no previous value was recorded (`revert`, lines 1131-1137). -/
def applyEntry (C : Caches) (e : JEntry) : Caches :=
  match e.2.2.1 with
  | some p => cacheSet C e.1 e.2.1 p
  | none => cacheDel C e.1 e.2.1

/-- The `while len(journal) > snapshot_size: pop and undo` loop. -/
def undoJournal : List JEntry → Nat → Caches → List JEntry × Caches
  | [], _, C => ([], C)
  | e :: rest, size, C =>
    if (e :: rest).length ≤ size then (e :: rest, C)
    else undoJournal rest size (applyEntry C e)

/-- `Block.revert(mysnapshot)` (lines 1123-1149). -/
def revert (s : BState) (snap : Snapshot) : BState :=
  let r := undoJournal s.journal snap.journal_size s.caches
  { s with journal := r.1,
           caches := r.2,
           suicides := s.suicides.take snap.suicides_size,
           logs := s.logs.take snap.logs_size,
           refunds := snap.refunds,
           stateTrie := snap.state,
           gas_used := snap.gas,
           txs := snap.txs,
           transaction_count := snap.txcount,
           ether_delta := snap.ether_delta }

/-- The cache mutations of claim C1: account-field writes
(`_set_acct_item`), storage writes (`set_storage_data`), log appends
(`add_log`), suicide appends, and refund / gas / ether_delta changes. -/
inductive Mutation where
  | setField (a : Addr) (f : AcctFld) (v : CVal)
  | setStorageData (a : Addr) (i : Nat) (v : Nat)
  | addLog (l : Nat)
  | addSuicide (a : Addr)
  | setRefunds (n : Nat)
  | setGasUsed (n : Nat)
  | setEtherDelta (d : Int)

def applyMutation (s : BState) : Mutation → BState
  | .setField a f v => set_acct_item s a f v
  | .setStorageData a i v => set_storage_data s a i v
  | .addLog l => { s with logs := s.logs ++ [l] }
  | .addSuicide a => { s with suicides := s.suicides ++ [a] }
  | .setRefunds n => { s with refunds := n }
  | .setGasUsed n => { s with gas_used := n }
  | .setEtherDelta d => { s with ether_delta := d }

def applyMutations (s : BState) (M : List Mutation) : BState :=
  M.foldl applyMutation s

/-- `Block.get_storage(address)` as the storage trie it denotes: the trie at
the cached storage root when one is cached (always `b''`, the blank trie,
written by `reset_storage`), else the account's storage trie. -/
def get_storage (s : BState) (a : Addr) : List (List Nat × List Nat) :=
  match cacheGet s.caches CName.storage (CKey.addr a) with
  | some _ => []
  | none => (get_acct s a).storage

/-- `Block.get_storage_data(address, index)` (lines 958-976): the slot-cache
hit, else the trie value under the zero-padded big-endian key decoded as a
big-endian integer, missing (or empty, `BLANK_NODE`) meaning zero. -/
def get_storage_data (s : BState) (a : Addr) (i : Nat) : Nat :=
  match cacheGet s.caches (CName.storageOf a) (CKey.idx i) with
  | some v => v.toNat
  | none =>
    let key := zpad (toBE i) 32
    match alLookup (get_storage s a) key with
    | some bs => if bs = [] then 0 else rlpDecInt bs
    | none => 0

/-- An uncle header as `finalize` reads it. -/
structure UncleM where
  number : Nat
  coinbase : Addr
  deriving DecidableEq

/-- The per-uncle reward `BLOCK_REWARD * (UNCLE_DEPTH_PENALTY_FACTOR +
uncle.number - self.number) / UNCLE_DEPTH_PENALTY_FACTOR`, truncated to an
integer.  `Int` division truncates toward zero, as Python's `int()` does on
the quotient; the quotient is exact because 8 divides `BLOCK_REWARD`. -/
def uncle_reward (number : Nat) (u : UncleM) : Int :=
  (BLOCK_REWARD : Int) * ((UNCLE_DEPTH_PENALTY_FACTOR : Int) + u.number - number) /
    (UNCLE_DEPTH_PENALTY_FACTOR : Int)

/-- The loop body of `finalize` for one uncle: credit its coinbase with the
depth-penalised reward and account the ether delta. -/
def apply_uncle_reward (number : Nat) (st : BState) (u : UncleM) : BState :=
  let r := uncle_reward number u
  let st1 := (delta_balance st u.coinbase r).2
  { st1 with ether_delta := st1.ether_delta + r }

/-- `Block.finalize()` (lines 1151-1164): credit the coinbase with
`BLOCK_REWARD + NEPHEW_REWARD * len(uncles)`, credit each uncle's coinbase
with its depth-penalised reward, then `commit_state()`.  The block's
`coinbase` and `number` are header fields, passed in here. -/
def finalize (s : BState) (coinbase : Addr) (number : Nat)
    (uncles : List UncleM) : BState :=
  let delta : Nat := BLOCK_REWARD + NEPHEW_REWARD * uncles.length
  let s1 := (delta_balance s coinbase (delta : Int)).2
  let s2 := { s1 with ether_delta := s1.ether_delta + delta }
  let s3 := uncles.foldl (apply_uncle_reward number) s2
  commit_state s3

/- ### Block construction up to the transaction-root check
(`Block.__init__`, lines 489-519) -/

/-- `trie.BLANK_ROOT` is the empty byte string. -/
def BLANK_ROOT : List Nat := []

/-- The header fields the construction path dispatch reads; `hash` is the
header's keccak hash, taken as given data. -/
structure HeaderC where
  prevhash : List Nat
  state_root : List Nat
  tx_list_root : List Nat
  receipts_root : List Nat
  hash : List Nat
  deriving DecidableEq

/-- The Python error values the modelled prefix of `__init__` can raise. -/
inductive PyErr where
  | valueError (msg : String)
  | verificationFailed (what : String)
  deriving DecidableEq

/-- `b'validated:' + hash` (ASCII `validated:`). -/
def validated_key (h : List Nat) : List Nat :=
  [118, 97, 108, 105, 100, 97, 116, 101, 100, 58] ++ h

/-- The `state_unknown` dispatch (lines 492-496). -/
def state_unknown (db : List (List Nat)) (h : HeaderC) (making : Bool) : Bool :=
  (h.prevhash ≠ GENESIS_PREVHASH) && (h.state_root ≠ BLANK_ROOT) &&
    ((h.state_root.length ≠ 32) || ¬ (validated_key h.hash ∈ db)) && !making

/-- The outcome of `Block.__init__(header, transaction_list, [], db)` up to
the transaction-root comparison: the number of `processblock.apply_transaction`
invocations (one per transaction on the replay path, none on the trust path)
and the error raised, if any.  On the trust path the supplied transactions
are added to a fresh transaction trie and its root is compared against
`header.tx_list_root`; a mismatch raises
`ValueError("Transaction list root hash does not match")` (line 516), before
the `must_equal('tx_list_root', ...)` check (line 550) is ever reached.
`txRoot` abstracts the external trie root of an RLP-indexed transaction
list. -/
def block_init_outcome (db : List (List Nat)) (h : HeaderC) (txs : List Nat)
    (txRoot : List Nat → List Nat) (making : Bool) : Nat × Option PyErr :=
  if state_unknown db h making then (txs.length, none)
  else if txRoot txs ≠ h.tx_list_root then
    (0, some (PyErr.valueError "Transaction list root hash does not match"))
  else (0, none)

def is_verification_failed : Option PyErr → Bool
  | some (PyErr.verificationFailed _) => true
  | _ => false

/-- The empty post-construction block state used by concrete witnesses. -/
def bstate0 : BState := ⟨init_caches, [], [], [], 0, 0, 0, 0, 0, []⟩

/-- Well-formedness of the cache dict: every inner dict has distinct keys
(Python dicts cannot hold a key twice). -/
def CachesWF (C : Caches) : Prop := ∀ p ∈ C, ((p.2.map Prod.fst).Nodup)

/-- Pointwise equivalence of cache dicts: the same lookups everywhere. -/
def CachesEqv (C D : Caches) : Prop := ∀ c k, cacheGet C c k = cacheGet D c k

/-- The induction invariant from a pre-mutation state `s0` to a mutated
state `s1`: the journal grew by a prefix whose LIFO undo restores every
cache entry, suicides and logs only grew, and the tries are untouched. -/
def UndoInv (s0 s1 : BState) : Prop :=
  CachesWF s1.caches ∧
  (∃ ext, s1.journal = ext ++ s0.journal ∧
    CachesEqv (ext.foldl applyEntry s1.caches) s0.caches) ∧
  (∃ t, s1.suicides = s0.suicides ++ t) ∧
  (∃ t, s1.logs = s0.logs ++ t) ∧
  s1.stateTrie = s0.stateTrie ∧ s1.txs = s0.txs

/-- A concrete mutation sequence exercising every mutation kind. -/
def muts0 : List Mutation :=
  [Mutation.setField [1] AcctFld.balance (CVal.num 5),
   Mutation.setStorageData [1] 0 7,
   Mutation.setField [1] AcctFld.balance (CVal.num 9),
   Mutation.addLog 3,
   Mutation.addSuicide [2],
   Mutation.setRefunds 4,
   Mutation.setGasUsed 9,
   Mutation.setEtherDelta (-2)]

/- ### C8: reward finalization -/

/-- The balance field cache holds integers (true of every reachable state:
its only writers cache account balances). -/
def BalTyped (C : Caches) : Prop :=
  ∀ k v, cacheGet C CName.balance k = some v → ∃ n, v = CVal.num n

theorem toBEAux_congr : ∀ f g n : Nat, n ≤ f → n ≤ g → toBEAux f n = toBEAux g n := by
  intro f
  induction f with
  | zero =>
    intro g n hf _
    have : n = 0 := Nat.le_zero.mp hf
    subst this
    cases g <;> simp [toBEAux]
  | succ f ih =>
    intro g n hf hg
    match g with
    | 0 =>
      have : n = 0 := Nat.le_zero.mp hg
      subst this
      simp [toBEAux]
    | g + 1 =>
      by_cases hn : n = 0
      · simp [toBEAux, hn]
      · simp only [toBEAux, hn, if_false]
        have hlt : n / 256 < n := Nat.div_lt_self (Nat.pos_of_ne_zero hn) (by omega)
        rw [ih g (n / 256) (by omega) (by omega)]

/-- Recurrence for `toBE`. -/
theorem toBE_eq (n : Nat) :
    toBE n = if n = 0 then [] else toBE (n / 256) ++ [n % 256] := by
  by_cases hn : n = 0
  · subst hn
    rfl
  · unfold toBE
    match n, hn with
    | m + 1, hn =>
      simp only [toBEAux, hn, if_false]
      congr 1
      have hlt : (m + 1) / 256 < m + 1 := Nat.div_lt_self (Nat.succ_pos m) (by omega)
      exact toBEAux_congr m ((m + 1) / 256) ((m + 1) / 256) (by omega) le_rfl

/-- fromBE of a snoc: one more base-256 digit. -/
theorem fromBE_append_singleton (l : List Nat) (d : Nat) :
    fromBE (l ++ [d]) = fromBE l * 256 + d := by
  unfold fromBE
  rw [List.foldl_append]
  rfl

/-- Round trip: the big-endian encoding decodes back. -/
theorem fromBE_toBE (n : Nat) : fromBE (toBE n) = n := by
  induction n using Nat.strong_induction_on with
  | _ n ih =>
    rw [toBE_eq]
    by_cases hn : n = 0
    · simp [hn, fromBE]
    · rw [if_neg hn, fromBE_append_singleton,
        ih (n / 256) (Nat.div_lt_self (Nat.pos_of_ne_zero hn) (by omega))]
      omega

/-- Length of the big-endian encoding: at most `k` digits below `256^k`. -/
theorem toBE_length_le {n k : Nat} (h : n < 256 ^ k) : (toBE n).length ≤ k := by
  induction k generalizing n with
  | zero =>
    interval_cases n
    simp [toBE, toBEAux]
  | succ k ih =>
    rw [toBE_eq]
    by_cases hn : n = 0
    · simp [hn]
    · rw [if_neg hn]
      have hd : n / 256 < 256 ^ k := by
        rw [Nat.div_lt_iff_lt_mul (by omega)]
        calc n < 256 ^ (k + 1) := h
        _ = 256 ^ k * 256 := by ring
      have := ih hd
      simp only [List.length_append, List.length_cons, List.length_nil]
      omega

/-- A value below 256^(length) bound for byte lists whose entries are bytes. -/
theorem fromBE_lt (l : List Nat) (h : ∀ b ∈ l, b < 256) :
    fromBE l < 256 ^ l.length := by
  induction l using List.reverseRecOn with
  | nil => simp [fromBE]
  | append_singleton l d ih =>
    rw [fromBE_append_singleton]
    have hd : d < 256 := h d (by simp)
    have hl : fromBE l < 256 ^ l.length := ih (fun b hb => h b (by simp [hb]))
    simp only [List.length_append, List.length_cons, List.length_nil]
    calc fromBE l * 256 + d < (fromBE l + 1) * 256 := by omega
    _ ≤ 256 ^ l.length * 256 := by
        have : fromBE l + 1 ≤ 256 ^ l.length := hl
        exact Nat.mul_le_mul_right 256 this
    _ = 256 ^ (l.length + 1) := by ring

/-- Round trip: a canonical RLP integer encoding decodes to the integer. -/
theorem rlpDecInt_rlpEncInt (n : Nat) (h : n < 256 ^ 55) :
    rlpDecInt (rlpEncInt n) = n := by
  have hlen : (toBE n).length ≤ 55 := toBE_length_le h
  have hrt := fromBE_toBE n
  unfold rlpEncInt rlpEncBytes
  rcases hb : toBE n with _ | ⟨x, rest⟩
  · rw [hb] at hrt
    simp only [fromBE, List.foldl_nil] at hrt
    subst hrt
    simp [rlpDecInt, fromBE]
  · rcases rest with _ | ⟨y, rest2⟩
    · rw [hb] at hrt
      simp only [fromBE, List.foldl_cons, List.foldl_nil, Nat.zero_mul,
        Nat.zero_add] at hrt
      subst hrt
      by_cases hlt : x < 128
      · simp [hlt, rlpDecInt]
      · simp only [hlt, if_false]
        simp only [rlpDecInt]
        rw [if_neg (by omega : ¬ (129 : Nat) < 128),
          if_pos (by omega : (129 : Nat) ≤ 183)]
        norm_num [fromBE]
    · rw [hb] at hrt hlen
      simp only [List.length_cons] at hlen
      rw [if_pos (by simp only [List.length_cons]; omega)]
      simp only [rlpDecInt]
      rw [if_neg (by simp only [List.length_cons]; omega),
        if_pos (by simp only [List.length_cons]; omega)]
      have hk : 128 + (x :: y :: rest2).length - 128 = (x :: y :: rest2).length := by
        omega
      rw [hk, List.take_of_length_le le_rfl]
      exact hrt

/-- C4: difficulty adjustment.  `calc_difficulty(parent, timestamp)` equals
`max(parent.difficulty + sign * (parent.difficulty // 2048), min(parent.difficulty,
131072))` where `sign` is `+1` when `timestamp - parent.timestamp < 8` and `-1`
otherwise; at `parent.timestamp + 7` it equals `parent.difficulty +
parent.difficulty // 2048`, and at `parent.timestamp + 8` it equals
`parent.difficulty - parent.difficulty // 2048` bounded below by
`min(parent.difficulty, 131072)`. -/
theorem claim_C4_calc_difficulty (parent : ParentHeader) (timestamp : Nat) :
    calc_difficulty parent timestamp =
      max ((parent.difficulty : Int) +
          (if (timestamp : Int) - parent.timestamp < 8 then 1 else -1) *
            ((parent.difficulty / 2048 : Nat) : Int))
        (min (parent.difficulty : Int) 131072) ∧
    calc_difficulty parent (parent.timestamp + 7) =
      (parent.difficulty : Int) + ((parent.difficulty / 2048 : Nat) : Int) ∧
    calc_difficulty parent (parent.timestamp + 8) =
      max ((parent.difficulty : Int) - ((parent.difficulty / 2048 : Nat) : Int))
        (min (parent.difficulty : Int) 131072) := by
  refine ⟨?_, ?_, ?_⟩
  · unfold calc_difficulty
    simp only [BLOCK_DIFF_FACTOR, DIFF_ADJUSTMENT_CUTOFF, MIN_DIFF]
    ring_nf
  · unfold calc_difficulty
    have hc : ((parent.timestamp + 7 : Nat) : Int) - parent.timestamp <
        DIFF_ADJUSTMENT_CUTOFF := by
      simp only [DIFF_ADJUSTMENT_CUTOFF]
      push_cast
      omega
    simp only [hc, if_true, BLOCK_DIFF_FACTOR, mul_one]
    rw [max_eq_left]
    have h1 : (0 : Int) ≤ ((parent.difficulty / 2048 : Nat) : Int) := Int.ofNat_nonneg _
    have h2 : min (parent.difficulty : Int) (MIN_DIFF : Int) ≤ (parent.difficulty : Int) :=
      min_le_left _ _
    omega
  · unfold calc_difficulty
    have hc : ¬ (((parent.timestamp + 8 : Nat) : Int) - parent.timestamp <
        DIFF_ADJUSTMENT_CUTOFF) := by
      simp only [DIFF_ADJUSTMENT_CUTOFF]
      push_cast
      omega
    simp only [hc, if_false, BLOCK_DIFF_FACTOR, MIN_DIFF]
    ring_nf

/-- C5 counterexample: for parent gas limit 3141592 and gas used 2000000, the
first formula gives 3141454, which is below GENESIS_GAS_LIMIT, so the
adjustment clause applies and `calc_gaslimit` returns 3141592, not 3141454
as the claim states. -/
theorem claim_C5_counterexample :
    calc_gaslimit ⟨0, 0, 3141592, 2000000⟩ ≠ 3141454 ∧
    calc_gaslimit ⟨0, 0, 3141592, 2000000⟩ = 3141592 := by
  constructor
  · decide
  · decide

/-- C5 (amended): `calc_gaslimit(parent)` equals `max(parent.gas_limit -
parent.gas_limit//1024 + (parent.gas_used*3//2)//1024, 125000)`, adjusted to
`min(3141592, parent.gas_limit + parent.gas_limit//1024)` when the first value
is below 3141592; `check_gaslimit(parent, gl)` holds iff `|gl - parent.gas_limit|
<= parent.gas_limit//1024` and `gl >= 125000`; for parent gas limit 3141592 and
gas used 2000000, `calc_gaslimit` yields 3141592 (the adjustment clause fires),
and `check_gaslimit` accepts 3141454 and rejects 3141592 + 3068. -/
theorem claim_C5_gaslimit (parent : ParentHeader) (gl : Nat) :
    calc_gaslimit parent =
      (if max (parent.gas_limit - parent.gas_limit / 1024 +
            parent.gas_used * 3 / 2 / 1024) 125000 < 3141592
        then min 3141592 (parent.gas_limit + parent.gas_limit / 1024)
        else max (parent.gas_limit - parent.gas_limit / 1024 +
            parent.gas_used * 3 / 2 / 1024) 125000) ∧
    (check_gaslimit parent gl = true ↔
      (((gl : Int) - parent.gas_limit).natAbs ≤ parent.gas_limit / 1024 ∧
        125000 ≤ gl)) ∧
    calc_gaslimit ⟨0, 0, 3141592, 2000000⟩ = 3141592 ∧
    check_gaslimit ⟨0, 0, 3141592, 2000000⟩ 3141454 = true ∧
    check_gaslimit ⟨0, 0, 3141592, 2000000⟩ (3141592 + 3068) = false := by
  refine ⟨?_, ?_, by decide, by decide, by decide⟩
  · unfold calc_gaslimit
    simp only [GASLIMIT_EMA_FACTOR, BLKLIM_FACTOR_NOM, BLKLIM_FACTOR_DEN,
      MIN_GAS_LIMIT, GENESIS_GAS_LIMIT]
  · unfold check_gaslimit
    simp only [GASLIMIT_EMA_FACTOR, MIN_GAS_LIMIT, Bool.and_eq_true,
      decide_eq_true_eq]

/-- C3: for a header with 32-byte mixhash and 8-byte nonce, `check_pow`
succeeds iff the mix digest returned by `hashimoto_light` equals the header's
mixhash and the big-endian value of the result times the difficulty is at
most `2^256`; with a wrong mixhash or nonce length it raises an error.  The
hypothesis on `hashimoto_light` is the ethash interface: a 32-byte result. -/
theorem claim_C3_check_pow (sha3 : List Nat → List Nat)
    (get_cache_size get_full_size : Nat → Nat)
    (hashimoto_light : Nat → List Nat × Nat → List Nat → List Nat →
      List Nat × List Nat)
    (h : HeaderPW)
    (hmix : h.mixhash.length = 32) (hnonce : h.nonce.length = 8)
    (hres : (hashimoto_light (get_full_size h.number)
        (pow_seed sha3 h.number, get_cache_size h.number)
        h.mining_hash h.nonce).2.length = 32)
    (hbytes : ∀ b ∈ (hashimoto_light (get_full_size h.number)
        (pow_seed sha3 h.number, get_cache_size h.number)
        h.mining_hash h.nonce).2, b < 256) :
    (check_pow sha3 get_cache_size get_full_size hashimoto_light h none =
      Except.ok
        (((hashimoto_light (get_full_size h.number)
            (pow_seed sha3 h.number, get_cache_size h.number)
            h.mining_hash h.nonce).1 = h.mixhash) &&
          (fromBE (hashimoto_light (get_full_size h.number)
            (pow_seed sha3 h.number, get_cache_size h.number)
            h.mining_hash h.nonce).2 * h.difficulty ≤ 2 ^ 256))) ∧
    (∀ g : HeaderPW, g.mixhash.length ≠ 32 ∨ g.nonce.length ≠ 8 →
      check_pow sha3 get_cache_size get_full_size hashimoto_light g none =
        Except.error "Bad mixhash or nonce length") := by
  constructor
  · set out := hashimoto_light (get_full_size h.number)
      (pow_seed sha3 h.number, get_cache_size h.number) h.mining_hash h.nonce with hout
    have hlt : fromBE out.2 < 2 ^ 256 := by
      have := fromBE_lt out.2 hbytes
      rw [hres] at this
      calc fromBE out.2 < 256 ^ 32 := this
      _ = 2 ^ 256 := by norm_num
    unfold check_pow
    rw [if_neg (by omega)]
    simp only [← hout]
    by_cases hmixeq : out.1 = h.mixhash
    · rw [if_neg (not_not_intro hmixeq)]
      congr 1
      rw [decide_eq_true hmixeq, Bool.true_and]
      apply decide_eq_decide.mpr
      by_cases hd : h.difficulty = 0
      · rw [if_pos hd, hd]
        constructor
        · intro _
          simp
        · intro _
          rw [Nat.div_one]
          exact le_of_lt hlt
      · rw [if_neg hd]
        exact Nat.le_div_iff_mul_le (Nat.pos_of_ne_zero hd)
    · rw [if_pos hmixeq]
      congr 1
      rw [decide_eq_false hmixeq, Bool.false_and]
  · intro g hg
    unfold check_pow
    rw [if_pos hg]

/-- C3 witness: the theorem applied at a concrete header and a concrete
hashimoto function. -/
theorem claim_C3_check_pow_witness :
    check_pow id (fun _ => 0) (fun _ => 0)
        (fun _ _ _ _ => (List.replicate 32 0, List.replicate 32 0))
        ⟨List.replicate 32 0, List.replicate 8 0, 1, 0, []⟩ none =
      Except.ok true := by
  have h := (claim_C3_check_pow id (fun _ => 0) (fun _ => 0)
    (fun _ _ _ _ => (List.replicate 32 0, List.replicate 32 0))
    ⟨List.replicate 32 0, List.replicate 8 0, 1, 0, []⟩
    (by decide) (by decide) (by decide) (by decide)).1
  rw [h]
  congr 1

theorem alLookup_update_self {α β : Type} [DecidableEq α]
    (l : List (α × β)) (a : α) (b : β) : alLookup (alUpdate l a b) a = some b := by
  induction l with
  | nil => simp [alLookup, alUpdate]
  | cons hd t ih =>
    obtain ⟨k, v⟩ := hd
    by_cases hk : k = a
    · simp [alUpdate, alLookup, hk]
    · simp [alUpdate, alLookup, hk, ih]

theorem alLookup_update_ne {α β : Type} [DecidableEq α]
    (l : List (α × β)) (a c : α) (b : β) (h : a ≠ c) :
    alLookup (alUpdate l a b) c = alLookup l c := by
  induction l with
  | nil => simp [alLookup, alUpdate, h]
  | cons hd t ih =>
    obtain ⟨k, v⟩ := hd
    by_cases hk : k = a
    · subst hk
      simp [alUpdate, alLookup, h]
    · simp only [alUpdate, hk, if_false]
      by_cases hc : k = c
      · simp [alLookup, hc]
      · simp [alLookup, hc, ih]

theorem alLookup_erase_ne {α β : Type} [DecidableEq α]
    (l : List (α × β)) (a c : α) (h : a ≠ c) :
    alLookup (alErase l a) c = alLookup l c := by
  induction l with
  | nil => simp [alErase]
  | cons hd t ih =>
    obtain ⟨k, v⟩ := hd
    simp only [alErase, alLookup]
    by_cases hk : k = a
    · rw [if_pos hk, if_neg (fun hc => h (hk.symm.trans hc))]
    · rw [if_neg hk]
      simp only [alLookup]
      by_cases hc : k = c
      · rw [if_pos hc, if_pos hc]
      · rw [if_neg hc, if_neg hc, ih]

/-- Erasing a freshly appended key restores the list when the key was absent. -/
theorem alErase_update_of_absent {α β : Type} [DecidableEq α]
    (l : List (α × β)) (a : α) (b : β) (h : alLookup l a = none) :
    alErase (alUpdate l a b) a = l := by
  induction l with
  | nil => simp [alUpdate, alErase]
  | cons hd t ih =>
    obtain ⟨k, v⟩ := hd
    by_cases hk : k = a
    · rw [alLookup, if_pos hk] at h
      exact absurd h (by simp)
    · rw [alLookup, if_neg hk] at h
      simp [alUpdate, alErase, hk, ih h]

/- ### Cache access lemmas -/

theorem cacheGet_cacheSet_self (C : Caches) (c : CName) (k : CKey) (v : CVal) :
    cacheGet (cacheSet C c k v) c k = some v := by
  unfold cacheGet cacheSet
  rw [alLookup_update_self]
  exact alLookup_update_self _ _ _

theorem cacheGet_cacheSet_ne (C : Caches) (c : CName) (k : CKey) (v : CVal)
    (cc : CName) (kk : CKey) (h : ¬ (cc = c ∧ kk = k)) :
    cacheGet (cacheSet C c k v) cc kk = cacheGet C cc kk := by
  by_cases hc : cc = c
  · subst hc
    have hk : kk ≠ k := fun he => h ⟨rfl, he⟩
    unfold cacheGet cacheSet
    rw [alLookup_update_self]
    show alLookup (alUpdate ((alLookup C cc).getD []) k v) kk =
      match alLookup C cc with
      | none => none
      | some d => alLookup d kk
    rw [alLookup_update_ne _ _ _ _ (fun he => hk he.symm)]
    cases hl : alLookup C cc with
    | none => simp [alLookup]
    | some d => simp
  · unfold cacheGet cacheSet
    rw [alLookup_update_ne _ _ _ _ (fun he => hc he.symm)]

theorem set_and_journal_caches_self (s : BState) (c : CName) (k : CKey) (v : CVal) :
    cacheGet (set_and_journal s c k v).caches c k = some v := by
  unfold set_and_journal
  by_cases h : cacheGet s.caches c k = some v
  · rw [if_pos h]
    exact h
  · rw [if_neg h]
    exact cacheGet_cacheSet_self _ _ _ _

theorem set_and_journal_caches_ne (s : BState) (c : CName) (k : CKey) (v : CVal)
    (cc : CName) (kk : CKey) (h : ¬ (cc = c ∧ kk = k)) :
    cacheGet (set_and_journal s c k v).caches cc kk = cacheGet s.caches cc kk := by
  unfold set_and_journal
  by_cases he : cacheGet s.caches c k = some v
  · rw [if_pos he]
  · rw [if_neg he]
    exact cacheGet_cacheSet_ne _ _ _ _ _ _ h

theorem set_and_journal_frame (s : BState) (c : CName) (k : CKey) (v : CVal) :
    (set_and_journal s c k v).suicides = s.suicides ∧
    (set_and_journal s c k v).logs = s.logs ∧
    (set_and_journal s c k v).refunds = s.refunds ∧
    (set_and_journal s c k v).gas_used = s.gas_used ∧
    (set_and_journal s c k v).ether_delta = s.ether_delta ∧
    (set_and_journal s c k v).transaction_count = s.transaction_count ∧
    (set_and_journal s c k v).txs = s.txs ∧
    (set_and_journal s c k v).stateTrie = s.stateTrie := by
  unfold set_and_journal
  by_cases he : cacheGet s.caches c k = some v
  · rw [if_pos he]
    exact ⟨rfl, rfl, rfl, rfl, rfl, rfl, rfl, rfl⟩
  · rw [if_neg he]
    exact ⟨rfl, rfl, rfl, rfl, rfl, rfl, rfl, rfl⟩

theorem AcctFld.toCName_ne_all (f : AcctFld) : f.toCName ≠ CName.all := by
  cases f <;> simp [AcctFld.toCName]

theorem AcctFld.toCName_ne_storageOf (f : AcctFld) (a : Addr) :
    f.toCName ≠ CName.storageOf a := by
  cases f <;> simp [AcctFld.toCName]

/- ### C9: commit_state idempotence -/

theorem commit_state_nil_journal (s : BState) (h : s.journal = []) :
    commit_state s = s := by
  rw [commit_state, if_pos h]

theorem commit_state_journal (s : BState) (h : s.journal ≠ []) :
    (commit_state s).journal = [] := by
  rw [commit_state, if_neg h]

/-- C9: `commit_state()` with an empty journal performs no writes and leaves
the state unchanged, and `commit_state()` immediately after `commit_state()`
is a no-op (the first call clears the journal). -/
theorem claim_C9_commit_idempotent (s : BState) :
    (s.journal = [] → commit_state s = s) ∧
    commit_state (commit_state s) = commit_state s := by
  refine ⟨commit_state_nil_journal s, ?_⟩
  by_cases h : s.journal = []
  · simp only [commit_state_nil_journal s h]
  · exact commit_state_nil_journal _ (commit_state_journal s h)

/-- C9 witness: the theorem applied at a concrete state with empty journal. -/
theorem claim_C9_commit_idempotent_witness :
    commit_state (commit_state bstate0) = commit_state bstate0 ∧
    commit_state bstate0 = bstate0 :=
  ⟨(claim_C9_commit_idempotent bstate0).2,
   (claim_C9_commit_idempotent bstate0).1 rfl⟩

/- ### C2: trust-path construction -/

/-- C2 counterexample: with the `validated:` sentinel present and a
transaction list whose trie root differs from `header.tx_list_root`,
construction raises `ValueError("Transaction list root hash does not
match")` (line 516) — not `VerificationFailed('tx_list_root', ...)` as the
claim states. -/
theorem claim_C2_counterexample :
    block_init_outcome [validated_key [7]]
        ⟨List.replicate 32 1, List.replicate 32 2, [9], [], [7]⟩ [1]
        (fun l => [l.length]) false =
      (0, some (PyErr.valueError "Transaction list root hash does not match")) ∧
    is_verification_failed (block_init_outcome [validated_key [7]]
        ⟨List.replicate 32 1, List.replicate 32 2, [9], [], [7]⟩ [1]
        (fun l => [l.length]) false).2 = false := by
  constructor
  · decide
  · decide

/-- C2 (amended): when the header's hash is recorded as validated in the DB
(sentinel `"validated:"||hash` present) and the state root has length 32,
construction takes the trust path: the external executor is never invoked,
and if the supplied transaction list's trie root differs from
`header.tx_list_root`, construction fails with
`ValueError("Transaction list root hash does not match")` — never with a
`VerificationFailed`. -/
theorem claim_C2_trust_path (db : List (List Nat)) (h : HeaderC) (txs : List Nat)
    (txRoot : List Nat → List Nat)
    (hmem : validated_key h.hash ∈ db) (hlen : h.state_root.length = 32) :
    (block_init_outcome db h txs txRoot false).1 = 0 ∧
    (txRoot txs ≠ h.tx_list_root →
      (block_init_outcome db h txs txRoot false).2 =
        some (PyErr.valueError "Transaction list root hash does not match")) ∧
    is_verification_failed (block_init_outcome db h txs txRoot false).2 = false := by
  have hsu : state_unknown db h false = false := by
    unfold state_unknown
    simp [hmem, hlen]
  by_cases htx : txRoot txs = h.tx_list_root
  · refine ⟨?_, ?_, ?_⟩ <;>
      simp [block_init_outcome, hsu, htx, is_verification_failed]
  · refine ⟨?_, ?_, ?_⟩ <;>
      simp [block_init_outcome, hsu, htx, is_verification_failed]

/-- C2 witness: the theorem applied at a concrete validated header whose
transaction root matches. -/
theorem claim_C2_trust_path_witness :
    (block_init_outcome [validated_key [7]]
        ⟨List.replicate 32 1, List.replicate 32 2, [1], [], [7]⟩ [1]
        (fun l => [l.length]) false).1 = 0 :=
  (claim_C2_trust_path [validated_key [7]]
    ⟨List.replicate 32 1, List.replicate 32 2, [1], [], [7]⟩ [1]
    (fun l => [l.length]) (by decide) (by decide)).1

/- ### C6: saturating delta -/

theorem get_acct_item_cached (s : BState) (a : Addr) (f : AcctFld) (v : CVal)
    (h : cacheGet s.caches f.toCName (CKey.addr a) = some v) :
    get_acct_item s a f = (v, s) := by
  unfold get_acct_item
  rw [h]

theorem get_acct_item_miss (s : BState) (a : Addr) (f : AcctFld)
    (h : cacheGet s.caches f.toCName (CKey.addr a) = none) :
    get_acct_item s a f = (underlying_item s a f,
      { s with caches := (cacheSet s.caches f.toCName (CKey.addr a)
          (underlying_item s a f)) }) := by
  unfold get_acct_item
  rw [h]

/-- The read-through fill: after `_get_acct_item` the read entry caches the
returned value and every other entry is unchanged. -/
theorem get_acct_item_caches (s : BState) (a : Addr) (f : AcctFld)
    (c : CName) (k : CKey) :
    cacheGet (get_acct_item s a f).2.caches c k =
      if c = f.toCName ∧ k = CKey.addr a then some (get_acct_item s a f).1
      else cacheGet s.caches c k := by
  cases hc : cacheGet s.caches f.toCName (CKey.addr a) with
  | some v =>
    rw [get_acct_item_cached s a f v hc]
    by_cases hck : c = f.toCName ∧ k = CKey.addr a
    · obtain ⟨h1, h2⟩ := hck
      subst h1
      subst h2
      rw [if_pos ⟨rfl, rfl⟩]
      exact hc
    · rw [if_neg hck]
  | none =>
    rw [get_acct_item_miss s a f hc]
    by_cases hck : c = f.toCName ∧ k = CKey.addr a
    · obtain ⟨h1, h2⟩ := hck
      subst h1
      subst h2
      rw [if_pos ⟨rfl, rfl⟩]
      exact cacheGet_cacheSet_self _ _ _ _
    · rw [if_neg hck]
      exact cacheGet_cacheSet_ne _ _ _ _ _ _ hck

theorem get_acct_item_frame (s : BState) (a : Addr) (f : AcctFld) :
    (get_acct_item s a f).2.journal = s.journal ∧
    (get_acct_item s a f).2.stateTrie = s.stateTrie ∧
    (get_acct_item s a f).2.suicides = s.suicides ∧
    (get_acct_item s a f).2.logs = s.logs := by
  unfold get_acct_item
  cases cacheGet s.caches f.toCName (CKey.addr a) <;>
    exact ⟨rfl, rfl, rfl, rfl⟩

theorem delta_item_eq (s : BState) (a : Addr) (f : AcctFld) (d : Int) :
    delta_item s a f d =
      if ((get_acct_item s a f).1.toNat : Int) + d < 0
      then (false, (get_acct_item s a f).2)
      else (true, set_acct_item (get_acct_item s a f).2 a f
        (CVal.num ((((get_acct_item s a f).1.toNat : Int) + d).toNat % 2 ^ 256))) := rfl

/-- C6 counterexample: on a state with empty caches, a failing
`delta_balance` still modifies the cache (the read-through fill of the
balance entry), so "leaves the cache unmodified" is not literally true. -/
theorem claim_C6_counterexample :
    (delta_balance bstate0 [170] (-1)).1 = false ∧
    (delta_balance bstate0 [170] (-1)).2.journal = bstate0.journal ∧
    (delta_balance bstate0 [170] (-1)).2.caches ≠ bstate0.caches := by
  refine ⟨by decide, by decide, by decide⟩

/-- C6 (amended): `_delta_item` computes `new = current + delta`; if
`new < 0` it returns `False`, writes nothing to the journal and changes no
account value — the only possible cache change is the unjournaled
read-through population of the read field's entry with its current value;
otherwise it writes `new mod 2^256` to the field cache, marks the address
touched, and returns `True`.  The typing hypothesis records that the numeric
field caches hold integers, as in every reachable state. -/
theorem claim_C6_delta_item (s : BState) (a : Addr) (f : AcctFld) (d : Int)
    (hf : f = AcctFld.balance ∨ f = AcctFld.nonce)
    (hty : ∀ v, cacheGet s.caches f.toCName (CKey.addr a) = some v →
      ∃ n, v = CVal.num n) :
    ((((get_acct_item s a f).1.toNat : Int) + d < 0 →
      (delta_item s a f d).1 = false ∧
      (delta_item s a f d).2.journal = s.journal ∧
      (delta_item s a f d).2.stateTrie = s.stateTrie ∧
      (∀ c k, cacheGet (delta_item s a f d).2.caches c k =
        if c = f.toCName ∧ k = CKey.addr a then some (get_acct_item s a f).1
        else cacheGet s.caches c k)) ∧
    (0 ≤ (((get_acct_item s a f).1.toNat : Int) + d) →
      (delta_item s a f d).1 = true ∧
      cacheGet (delta_item s a f d).2.caches f.toCName (CKey.addr a) =
        some (CVal.num ((((get_acct_item s a f).1.toNat : Int) + d).toNat % 2 ^ 256)) ∧
      cacheGet (delta_item s a f d).2.caches CName.all (CKey.addr a) =
        some CVal.tt)) := by
  constructor
  · intro hneg
    rw [delta_item_eq, if_pos hneg]
    exact ⟨rfl, (get_acct_item_frame s a f).1, (get_acct_item_frame s a f).2.1,
      fun c k => get_acct_item_caches s a f c k⟩
  · intro hpos
    rw [delta_item_eq, if_neg (not_lt.mpr hpos)]
    refine ⟨rfl, ?_, ?_⟩
    · unfold set_acct_item
      rw [set_and_journal_caches_ne _ _ _ _ _ _
        (fun hp => AcctFld.toCName_ne_all f hp.1)]
      exact set_and_journal_caches_self _ _ _ _
    · unfold set_acct_item
      exact set_and_journal_caches_self _ _ _ _

/-- C6 witness: the failing branch at a concrete uncached account with
balance 0 and delta -1 (the claim's particular instance with current
balance 0), and the succeeding branch implied values at delta +5. -/
theorem claim_C6_delta_item_witness :
    (delta_item bstate0 [170] AcctFld.balance (-1)).1 = false ∧
    (delta_item bstate0 [170] AcctFld.balance (-1)).2.journal = bstate0.journal ∧
    (delta_item bstate0 [170] AcctFld.balance 5).1 = true := by
  have hnone : cacheGet bstate0.caches AcctFld.balance.toCName (CKey.addr [170]) =
      none := by decide
  have hty : ∀ v, cacheGet bstate0.caches AcctFld.balance.toCName
      (CKey.addr [170]) = some v → ∃ n, v = CVal.num n := by
    intro v hv
    rw [hnone] at hv
    exact absurd hv (by simp)
  have h1 := (claim_C6_delta_item bstate0 [170] AcctFld.balance (-1)
    (Or.inl rfl) hty).1 (by decide)
  have h2 := (claim_C6_delta_item bstate0 [170] AcctFld.balance 5
    (Or.inl rfl) hty).2 (by decide)
  exact ⟨h1.1, h1.2.1, h2.1⟩

/- ### C10: transfer_value atomicity -/

theorem delta_item_fail_spec (s : BState) (a : Addr) (f : AcctFld) (d : Int)
    (h : ((get_acct_item s a f).1.toNat : Int) + d < 0) :
    delta_item s a f d = (false, (get_acct_item s a f).2) := by
  rw [delta_item_eq, if_pos h]

theorem delta_item_success_spec (s : BState) (a : Addr) (f : AcctFld) (d : Int)
    (h : 0 ≤ ((get_acct_item s a f).1.toNat : Int) + d) :
    delta_item s a f d = (true, set_acct_item (get_acct_item s a f).2 a f
      (CVal.num ((((get_acct_item s a f).1.toNat : Int) + d).toNat % 2 ^ 256))) := by
  rw [delta_item_eq, if_neg (not_lt.mpr h)]

theorem set_and_journal_stateTrie (s : BState) (c : CName) (k : CKey) (v : CVal) :
    (set_and_journal s c k v).stateTrie = s.stateTrie :=
  (set_and_journal_frame s c k v).2.2.2.2.2.2.2

theorem set_acct_item_caches (s : BState) (a : Addr) (f : AcctFld) (v : CVal)
    (c : CName) (k : CKey) :
    cacheGet (set_acct_item s a f v).caches c k =
      if c = f.toCName ∧ k = CKey.addr a then some v
      else if c = CName.all ∧ k = CKey.addr a then some CVal.tt
      else cacheGet s.caches c k := by
  unfold set_acct_item
  by_cases h1 : c = f.toCName ∧ k = CKey.addr a
  · rw [if_pos h1]
    obtain ⟨e1, e2⟩ := h1
    subst e1
    subst e2
    rw [set_and_journal_caches_ne _ _ _ _ _ _
      (fun hp => AcctFld.toCName_ne_all f hp.1)]
    exact set_and_journal_caches_self _ _ _ _
  · rw [if_neg h1]
    by_cases h2 : c = CName.all ∧ k = CKey.addr a
    · rw [if_pos h2]
      obtain ⟨e1, e2⟩ := h2
      subst e1
      subst e2
      exact set_and_journal_caches_self _ _ _ _
    · rw [if_neg h2]
      rw [set_and_journal_caches_ne _ _ _ _ _ _ h2,
        set_and_journal_caches_ne _ _ _ _ _ _ h1]

/-- Cache lookups after a successful `_delta_item`: the written field entry,
the `'all'` mark, and everything else unchanged (including a possible
read-through fill of the written entry, which the write overwrites). -/
theorem delta_item_caches_after (s : BState) (a : Addr) (f : AcctFld) (d : Int)
    (h : 0 ≤ ((get_acct_item s a f).1.toNat : Int) + d) (c : CName) (k : CKey) :
    cacheGet (delta_item s a f d).2.caches c k =
      if c = f.toCName ∧ k = CKey.addr a
      then some (CVal.num ((((get_acct_item s a f).1.toNat : Int) + d).toNat % 2 ^ 256))
      else if c = CName.all ∧ k = CKey.addr a then some CVal.tt
      else cacheGet s.caches c k := by
  rw [delta_item_success_spec s a f d h]
  show cacheGet (set_acct_item (get_acct_item s a f).2 a f _).caches c k = _
  rw [set_acct_item_caches]
  by_cases h1 : c = f.toCName ∧ k = CKey.addr a
  · rw [if_pos h1, if_pos h1]
  · rw [if_neg h1, if_neg h1]
    by_cases h2 : c = CName.all ∧ k = CKey.addr a
    · rw [if_pos h2, if_pos h2]
    · rw [if_neg h2, if_neg h2, get_acct_item_caches, if_neg h1]

theorem delta_item_stateTrie (s : BState) (a : Addr) (f : AcctFld) (d : Int) :
    (delta_item s a f d).2.stateTrie = s.stateTrie := by
  rw [delta_item_eq]
  by_cases h : ((get_acct_item s a f).1.toNat : Int) + d < 0
  · rw [if_pos h]
    exact (get_acct_item_frame s a f).2.1
  · rw [if_neg h]
    show (set_acct_item (get_acct_item s a f).2 a f _).stateTrie = _
    unfold set_acct_item
    rw [set_and_journal_stateTrie, set_and_journal_stateTrie]
    exact (get_acct_item_frame s a f).2.1

theorem get_balance_eq_of_cache (s : BState) (a : Addr) (n : Nat)
    (h : cacheGet s.caches CName.balance (CKey.addr a) = some (CVal.num n)) :
    get_balance s a = n := by
  unfold get_balance
  rw [get_acct_item_cached s a .balance _ h]
  rfl

theorem get_balance_congr (s1 s2 : BState) (a : Addr)
    (hc : cacheGet s1.caches CName.balance (CKey.addr a) =
      cacheGet s2.caches CName.balance (CKey.addr a))
    (ht : s1.stateTrie = s2.stateTrie) :
    get_balance s1 a = get_balance s2 a := by
  cases h2 : cacheGet s2.caches CName.balance (CKey.addr a) with
  | some v =>
    have h1 : cacheGet s1.caches CName.balance (CKey.addr a) = some v := by
      rw [hc, h2]
    unfold get_balance
    rw [get_acct_item_cached s1 a .balance v h1,
      get_acct_item_cached s2 a .balance v h2]
  | none =>
    have h1 : cacheGet s1.caches CName.balance (CKey.addr a) = none := by
      rw [hc, h2]
    unfold get_balance
    rw [get_acct_item_miss s1 a .balance h1, get_acct_item_miss s2 a .balance h2]
    show (underlying_item s1 a .balance).toNat = (underlying_item s2 a .balance).toNat
    unfold underlying_item get_acct
    rw [ht]

/-- A read-through fill does not change the balance read back. -/
theorem get_balance_after_read (s : BState) (a : Addr) :
    get_balance (get_acct_item s a .balance).2 a = get_balance s a := by
  have h := get_acct_item_caches s a .balance CName.balance (CKey.addr a)
  rw [if_pos ⟨rfl, rfl⟩] at h
  conv_lhs => unfold get_balance
  rw [get_acct_item_cached _ a .balance _ h]
  rfl

theorem transfer_value_eq (s : BState) (fa ta : Addr) (v : Nat) :
    transfer_value s fa ta v =
      if (delta_balance s fa (-(v : Int))).1
      then delta_balance (delta_balance s fa (-(v : Int))).2 ta (v : Int)
      else (false, (delta_balance s fa (-(v : Int))).2) := rfl

/-- C10: `transfer_value` returns `False` and leaves both balances unchanged
when the sender's balance is below `value`; otherwise it debits the sender
by `value`, credits the receiver by `value` mod `2^256`, and returns `True`.
The receiver is never credited when the debit fails. -/
theorem claim_C10_transfer_value (s : BState) (fa ta : Addr) (v : Nat)
    (hne : fa ≠ ta) (hbound : get_balance s fa < 2 ^ 256) :
    (get_balance s fa < v →
      (transfer_value s fa ta v).1 = false ∧
      get_balance (transfer_value s fa ta v).2 fa = get_balance s fa ∧
      get_balance (transfer_value s fa ta v).2 ta = get_balance s ta) ∧
    (v ≤ get_balance s fa →
      (transfer_value s fa ta v).1 = true ∧
      get_balance (transfer_value s fa ta v).2 fa = get_balance s fa - v ∧
      get_balance (transfer_value s fa ta v).2 ta =
        (get_balance s ta + v) % 2 ^ 256) := by
  have hane : ¬ (CName.balance = AcctFld.balance.toCName ∧
      CKey.addr ta = CKey.addr fa) := by
    intro hp
    exact hne (by injection hp.2 with he; exact he.symm)
  constructor
  · intro hlt
    have hfail : ((get_acct_item s fa AcctFld.balance).1.toNat : Int) + (-(v : Int)) < 0 := by
      have hv : (get_acct_item s fa AcctFld.balance).1.toNat < v := hlt
      omega
    have hd : delta_balance s fa (-(v : Int)) = (false, (get_acct_item s fa .balance).2) :=
      delta_item_fail_spec s fa .balance _ hfail
    rw [transfer_value_eq, hd]
    refine ⟨rfl, ?_, ?_⟩
    · show get_balance (get_acct_item s fa .balance).2 fa = get_balance s fa
      exact get_balance_after_read s fa
    · show get_balance (get_acct_item s fa .balance).2 ta = get_balance s ta
      refine get_balance_congr _ _ ta ?_ (get_acct_item_frame s fa .balance).2.1
      rw [get_acct_item_caches s fa .balance CName.balance (CKey.addr ta),
        if_neg hane]
  · intro hge
    have hok : 0 ≤ ((get_acct_item s fa AcctFld.balance).1.toNat : Int) + (-(v : Int)) := by
      have hv : v ≤ (get_acct_item s fa AcctFld.balance).1.toNat := hge
      omega
    set w1 := ((((get_acct_item s fa AcctFld.balance).1.toNat : Int) + (-(v : Int))).toNat
      % 2 ^ 256) with hw1
    have hd1 : delta_balance s fa (-(v : Int)) =
        (true, set_acct_item (get_acct_item s fa .balance).2 fa .balance (CVal.num w1)) :=
      delta_item_success_spec s fa .balance _ hok
    have hd1i : delta_item s fa AcctFld.balance (-(v : Int)) =
        (true, set_acct_item (get_acct_item s fa .balance).2 fa .balance (CVal.num w1)) :=
      hd1
    have hS1c := delta_item_caches_after s fa .balance (-(v : Int)) hok
    have hS1t := delta_item_stateTrie s fa .balance (-(v : Int))
    rw [hd1i] at hS1c hS1t
    set S1 := set_acct_item (get_acct_item s fa .balance).2 fa .balance (CVal.num w1)
      with hS1
    have hgb1 : get_balance S1 fa = w1 := by
      refine get_balance_eq_of_cache S1 fa w1 ?_
      rw [hS1c CName.balance (CKey.addr fa), if_pos ⟨rfl, rfl⟩]
    have hgb1ta : get_balance S1 ta = get_balance s ta := by
      refine get_balance_congr S1 s ta ?_ hS1t
      rw [hS1c CName.balance (CKey.addr ta), if_neg hane,
        if_neg (fun hp => CName.noConfusion hp.1)]
    have hok2 : 0 ≤ ((get_acct_item S1 ta AcctFld.balance).1.toNat : Int) + (v : Int) := by
      have : (0 : Int) ≤ ((get_acct_item S1 ta AcctFld.balance).1.toNat : Int) :=
        Int.ofNat_nonneg _
      omega
    set w2 := ((((get_acct_item S1 ta AcctFld.balance).1.toNat : Int) + (v : Int)).toNat
      % 2 ^ 256) with hw2
    have hd2 : delta_balance S1 ta (v : Int) =
        (true, set_acct_item (get_acct_item S1 ta .balance).2 ta .balance (CVal.num w2)) :=
      delta_item_success_spec S1 ta .balance _ hok2
    have hd2i : delta_item S1 ta AcctFld.balance (v : Int) =
        (true, set_acct_item (get_acct_item S1 ta .balance).2 ta .balance (CVal.num w2)) :=
      hd2
    have hS2c := delta_item_caches_after S1 ta .balance (v : Int) hok2
    have hS2t := delta_item_stateTrie S1 ta .balance (v : Int)
    rw [hd2i] at hS2c hS2t
    set S2 := set_acct_item (get_acct_item S1 ta .balance).2 ta .balance (CVal.num w2)
      with hS2
    have htv : transfer_value s fa ta v = (true, S2) := by
      rw [transfer_value_eq, hd1]
      show delta_balance S1 ta (v : Int) = (true, S2)
      rw [hd2]
    rw [htv]
    refine ⟨rfl, ?_, ?_⟩
    · show get_balance S2 fa = get_balance s fa - v
      have hc2 : cacheGet S2.caches CName.balance (CKey.addr fa) = some (CVal.num w1) := by
        rw [hS2c CName.balance (CKey.addr fa),
          if_neg (fun hp => hne (by simpa using hp.2)),
          if_neg (fun hp => CName.noConfusion hp.1)]
        rw [hS1c CName.balance (CKey.addr fa), if_pos ⟨rfl, rfl⟩]
      rw [get_balance_eq_of_cache S2 fa w1 hc2]
      have hgbs : get_balance s fa = (get_acct_item s fa AcctFld.balance).1.toNat := rfl
      rw [hw1]
      have htn : (((get_acct_item s fa AcctFld.balance).1.toNat : Int) + (-(v : Int))).toNat
          = (get_acct_item s fa AcctFld.balance).1.toNat - v := by
        omega
      rw [htn]
      rw [hgbs] at hbound ⊢
      exact Nat.mod_eq_of_lt (lt_of_le_of_lt (Nat.sub_le _ _) hbound)
    · show get_balance S2 ta = (get_balance s ta + v) % 2 ^ 256
      have hc2 : cacheGet S2.caches CName.balance (CKey.addr ta) = some (CVal.num w2) := by
        rw [hS2c CName.balance (CKey.addr ta), if_pos ⟨rfl, rfl⟩]
      rw [get_balance_eq_of_cache S2 ta w2 hc2]
      have hgb1e : get_balance S1 ta = (get_acct_item S1 ta AcctFld.balance).1.toNat := rfl
      rw [hw2]
      have htn : (((get_acct_item S1 ta AcctFld.balance).1.toNat : Int) + (v : Int)).toNat
          = (get_acct_item S1 ta AcctFld.balance).1.toNat + v := by
        omega
      rw [htn, ← hgb1e, hgb1ta]

/-- C10 witness: a concrete failing transfer (balance 0, value 1) and a
concrete succeeding transfer from a funded account. -/
theorem claim_C10_transfer_value_witness :
    (transfer_value bstate0 [1] [2] 1).1 = false ∧
    (transfer_value { bstate0 with stateTrie := [([1], ⟨0, 100, [], []⟩)] } [1] [2] 60).1
      = true ∧
    get_balance (transfer_value { bstate0 with
      stateTrie := [([1], ⟨0, 100, [], []⟩)] } [1] [2] 60).2 [1] = 40 := by
  have h1 := (claim_C10_transfer_value bstate0 [1] [2] 1
    (by decide) (by decide)).1 (by decide)
  have h2 := (claim_C10_transfer_value
    { bstate0 with stateTrie := [([1], ⟨0, 100, [], []⟩)] } [1] [2] 60
    (by decide) (by decide)).2 (by decide)
  refine ⟨h1.1, h2.1, ?_⟩
  rw [h2.2.1]
  decide

/- ### C7: storage zero-deletes and default reads -/

theorem alLookup_eq_none_of_not_mem {α β : Type} [DecidableEq α]
    (l : List (α × β)) (k : α) (h : k ∉ l.map Prod.fst) : alLookup l k = none := by
  induction l with
  | nil => rfl
  | cons hd t ih =>
    obtain ⟨k2, v⟩ := hd
    simp only [List.map_cons, List.mem_cons] at h
    push_neg at h
    rw [alLookup, if_neg (fun he => h.1 he.symm)]
    exact ih h.2

theorem alLookup_erase_self_of_nodup {α β : Type} [DecidableEq α]
    (l : List (α × β)) (k : α) (h : (l.map Prod.fst).Nodup) :
    alLookup (alErase l k) k = none := by
  induction l with
  | nil => rfl
  | cons hd t ih =>
    obtain ⟨k2, v⟩ := hd
    simp only [List.map_cons, List.nodup_cons] at h
    rw [alErase]
    by_cases hk : k2 = k
    · rw [if_pos hk]
      subst hk
      exact alLookup_eq_none_of_not_mem t k2 h.1
    · rw [if_neg hk, alLookup, if_neg hk]
      exact ih h.2

theorem cacheGet_alUpdate_ne (C : Caches) (c cc : CName) (d : List (CKey × CVal))
    (k : CKey) (h : c ≠ cc) :
    cacheGet (alUpdate C c d) cc k = cacheGet C cc k := by
  unfold cacheGet
  rw [alLookup_update_ne _ _ _ _ h]

theorem set_and_journal_of_ne (s : BState) (c : CName) (k : CKey) (v : CVal)
    (h : cacheGet s.caches c k ≠ some v) :
    set_and_journal s c k v =
      { s with journal := (c, k, cacheGet s.caches c k, v) :: s.journal,
               caches := cacheSet s.caches c k v } := by
  unfold set_and_journal
  rw [if_neg h]

theorem rlpEncInt_ne_nil (n : Nat) : rlpEncInt n ≠ [] := by
  unfold rlpEncInt rlpEncBytes
  match toBE n with
  | [] => simp
  | [x] => by_cases hx : x < 128 <;> simp [hx]
  | x :: y :: rest2 =>
    split
    · simp_all
    · split <;> simp

/-- The cache dict after `set_storage_data` on a freshly committed state. -/
theorem set_storage_data_caches_init (s : BState) (a : Addr) (i v : Nat)
    (hc : s.caches = init_caches) :
    (set_storage_data s a i v).caches =
      [(CName.balance, []), (CName.nonce, []), (CName.code, []),
       (CName.storage, []), (CName.all, [(CKey.addr a, CVal.tt)]),
       (CName.storageOf a, [(CKey.idx i, CVal.num v)])] := by
  unfold set_storage_data
  simp [hc, init_caches, dictMem, alLookup, set_and_journal, cacheGet, cacheSet,
    alUpdate]

theorem set_storage_data_stateTrie (s : BState) (a : Addr) (i v : Nat) :
    (set_storage_data s a i v).stateTrie = s.stateTrie := by
  unfold set_storage_data
  rw [set_and_journal_stateTrie]
  split
  · rfl
  · rw [set_and_journal_stateTrie]

theorem set_storage_data_journal_init (s : BState) (a : Addr) (i v : Nat)
    (hc : s.caches = init_caches) :
    (set_storage_data s a i v).journal ≠ [] := by
  unfold set_storage_data
  simp [hc, init_caches, dictMem, alLookup, set_and_journal, cacheGet, cacheSet,
    alUpdate]

/-- C7: `set_storage_data(addr, index, 0)` makes `commit_state()` delete the
32-byte zero-padded big-endian key from the account's storage trie, a
non-zero value is written as `rlp(value)` under that key (stated from a
committed state: empty caches and journal, as after any `commit_state`); and
`get_storage_data(addr, index)` returns 0 when the index is neither cached
nor in the account's storage trie, the decoded stored value on a trie hit,
and the cached value on a cache hit. -/
theorem claim_C7_storage (s : BState) (a : Addr) (i v : Nat)
    (hc : s.caches = init_caches)
    (hnd : (((alLookup s.stateTrie a).getD blank_account).storage.map
      Prod.fst).Nodup) :
    (alLookup ((alLookup (commit_state (set_storage_data s a i v)).stateTrie a).getD
        blank_account).storage (zpad (toBE i) 32) =
      if v = 0 then none else some (rlpEncInt v)) ∧
    (∀ s2 : BState, ∀ a2 : Addr, ∀ i2 : Nat,
      cacheGet s2.caches (CName.storageOf a2) (CKey.idx i2) = none →
      (alLookup (get_storage s2 a2) (zpad (toBE i2) 32) = none →
        get_storage_data s2 a2 i2 = 0) ∧
      (∀ w : Nat, w < 2 ^ 256 →
        alLookup (get_storage s2 a2) (zpad (toBE i2) 32) = some (rlpEncInt w) →
        get_storage_data s2 a2 i2 = w)) ∧
    (∀ s2 : BState, ∀ a2 : Addr, ∀ i2 w : Nat,
      cacheGet s2.caches (CName.storageOf a2) (CKey.idx i2) = some (CVal.num w) →
      get_storage_data s2 a2 i2 = w) := by
  refine ⟨?_, ?_, ?_⟩
  · have hC := set_storage_data_caches_init s a i v hc
    have hT := set_storage_data_stateTrie s a i v
    have hJ := set_storage_data_journal_init s a i v hc
    rw [commit_state, if_neg hJ]
    show alLookup ((alLookup ((all_addrs (set_storage_data s a i v)).foldl
      (commit_addr (set_storage_data s a i v))
      (set_storage_data s a i v).stateTrie) a).getD blank_account).storage
      (zpad (toBE i) 32) = _
    have haddrs : all_addrs (set_storage_data s a i v) = [a] := by
      unfold all_addrs
      rw [hC]
      simp [alLookup, sortAddrs, insertSorted]
    rw [haddrs, hT]
    show alLookup ((alLookup (commit_addr (set_storage_data s a i v) s.stateTrie a)
      a).getD blank_account).storage (zpad (toBE i) 32) = _
    unfold commit_addr
    rw [alLookup_update_self]
    have hfld : ∀ f : AcctFld,
        cacheGet (set_storage_data s a i v).caches f.toCName (CKey.addr a) = none := by
      intro f
      rw [hC]
      cases f <;> simp [cacheGet, alLookup, AcctFld.toCName]
    have happly : ∀ f : AcctFld, ∀ acct : AccountM,
        applyFld (set_storage_data s a i v).caches a acct f = acct := by
      intro f acct
      unfold applyFld
      rw [hfld f]
    rw [happly, happly, happly, happly]
    have hsto : alLookup (set_storage_data s a i v).caches (CName.storageOf a) =
        some [(CKey.idx i, CVal.num v)] := by
      rw [hC]
      simp [alLookup]
    rw [hsto]
    show alLookup (commit_storage [(CKey.idx i, CVal.num v)]
      ((alLookup s.stateTrie a).getD blank_account).storage) (zpad (toBE i) 32) = _
    unfold commit_storage
    simp only [List.foldl_cons, List.foldl_nil]
    by_cases hv : v = 0
    · rw [if_pos hv]
      simp only [hv, ne_eq, not_true_eq_false, if_false]
      exact alLookup_erase_self_of_nodup _ _ hnd
    · rw [if_neg hv]
      simp only [ne_eq, hv, not_false_eq_true, if_true]
      exact alLookup_update_self _ _ _
  · intro s2 a2 i2 hmiss
    unfold get_storage_data
    rw [hmiss]
    constructor
    · intro htrie
      show (match alLookup (get_storage s2 a2) (zpad (toBE i2) 32) with
        | some bs => if bs = [] then 0 else rlpDecInt bs
        | none => 0) = 0
      rw [htrie]
    · intro w hw htrie
      show (match alLookup (get_storage s2 a2) (zpad (toBE i2) 32) with
        | some bs => if bs = [] then 0 else rlpDecInt bs
        | none => 0) = w
      rw [htrie]
      have hne : rlpEncInt w ≠ [] := rlpEncInt_ne_nil w
      simp only [hne, if_false]
      exact rlpDecInt_rlpEncInt w (lt_trans hw (by norm_num))
  · intro s2 a2 i2 w hhit
    unfold get_storage_data
    rw [hhit]
    rfl

/-- C7 witness: a non-zero write committed into an empty account's storage
trie, and a default read of zero. -/
theorem claim_C7_storage_witness :
    alLookup ((alLookup (commit_state (set_storage_data bstate0 [5] 0 7)).stateTrie
        [5]).getD blank_account).storage (zpad (toBE 0) 32) = some (rlpEncInt 7) ∧
    get_storage_data bstate0 [5] 0 = 0 := by
  have h := claim_C7_storage bstate0 [5] 0 7 rfl (by decide)
  constructor
  · have h1 := h.1
    rw [if_neg (by decide)] at h1
    exact h1
  · exact (h.2.1 bstate0 [5] 0 (by decide)).1 (by decide)

/- ### C1: journal round-trip -/

theorem alLookup_mem {α β : Type} [DecidableEq α]
    {l : List (α × β)} {a : α} {b : β} (h : alLookup l a = some b) : (a, b) ∈ l := by
  induction l with
  | nil => exact absurd h (by simp [alLookup])
  | cons hd t ih =>
    obtain ⟨k, v⟩ := hd
    rw [alLookup] at h
    by_cases hk : k = a
    · rw [if_pos hk] at h
      subst hk
      injection h with hv
      subst hv
      exact List.mem_cons_self _ _
    · rw [if_neg hk] at h
      exact List.mem_cons_of_mem _ (ih h)

theorem mem_keys_alUpdate {α β : Type} [DecidableEq α]
    {l : List (α × β)} {a x : α} {b : β}
    (h : x ∈ (alUpdate l a b).map Prod.fst) : x = a ∨ x ∈ l.map Prod.fst := by
  induction l with
  | nil => simpa [alUpdate] using h
  | cons hd t ih =>
    obtain ⟨k, v⟩ := hd
    rw [alUpdate] at h
    by_cases hk : k = a
    · rw [if_pos hk] at h
      simp only [List.map_cons, List.mem_cons] at h
      rcases h with h | h
      · exact Or.inl h
      · exact Or.inr (by simp [h])
    · rw [if_neg hk] at h
      simp only [List.map_cons, List.mem_cons] at h
      rcases h with h | h
      · exact Or.inr (by simp [h])
      · rcases ih h with h2 | h2
        · exact Or.inl h2
        · exact Or.inr (by simp [h2])

theorem alUpdate_map_fst_nodup {α β : Type} [DecidableEq α]
    (l : List (α × β)) (a : α) (b : β) (h : (l.map Prod.fst).Nodup) :
    ((alUpdate l a b).map Prod.fst).Nodup := by
  induction l with
  | nil => simp [alUpdate]
  | cons hd t ih =>
    obtain ⟨k, v⟩ := hd
    simp only [List.map_cons, List.nodup_cons] at h
    rw [alUpdate]
    by_cases hk : k = a
    · rw [if_pos hk]
      simp only [List.map_cons, List.nodup_cons]
      exact ⟨hk ▸ h.1, h.2⟩
    · rw [if_neg hk]
      simp only [List.map_cons, List.nodup_cons]
      refine ⟨fun hm => ?_, ih h.2⟩
      rcases mem_keys_alUpdate hm with h2 | h2
      · exact hk h2
      · exact h.1 h2

theorem mem_keys_alErase {α β : Type} [DecidableEq α]
    {l : List (α × β)} {a x : α}
    (h : x ∈ (alErase l a).map Prod.fst) : x ∈ l.map Prod.fst := by
  induction l with
  | nil => simpa [alErase] using h
  | cons hd t ih =>
    obtain ⟨k, v⟩ := hd
    rw [alErase] at h
    by_cases hk : k = a
    · rw [if_pos hk] at h
      simp [h]
    · rw [if_neg hk] at h
      simp only [List.map_cons, List.mem_cons] at h ⊢
      rcases h with h | h
      · exact Or.inl h
      · exact Or.inr (ih h)

theorem alErase_map_fst_nodup {α β : Type} [DecidableEq α]
    (l : List (α × β)) (a : α) (h : (l.map Prod.fst).Nodup) :
    ((alErase l a).map Prod.fst).Nodup := by
  induction l with
  | nil => simp [alErase]
  | cons hd t ih =>
    obtain ⟨k, v⟩ := hd
    simp only [List.map_cons, List.nodup_cons] at h
    rw [alErase]
    by_cases hk : k = a
    · rw [if_pos hk]
      exact h.2
    · rw [if_neg hk]
      simp only [List.map_cons, List.nodup_cons]
      exact ⟨fun hm => h.1 (mem_keys_alErase hm), ih h.2⟩

theorem mem_alUpdate {α β : Type} [DecidableEq α]
    {l : List (α × β)} {a : α} {b : β} {p : α × β}
    (h : p ∈ alUpdate l a b) : p = (a, b) ∨ p ∈ l := by
  induction l with
  | nil => simpa [alUpdate] using h
  | cons hd t ih =>
    obtain ⟨k, v⟩ := hd
    rw [alUpdate] at h
    by_cases hk : k = a
    · rw [if_pos hk] at h
      rcases List.mem_cons.mp h with h | h
      · exact Or.inl h
      · exact Or.inr (List.mem_cons_of_mem _ h)
    · rw [if_neg hk] at h
      rcases List.mem_cons.mp h with h | h
      · exact Or.inr (by simp [h])
      · rcases ih h with h2 | h2
        · exact Or.inl h2
        · exact Or.inr (List.mem_cons_of_mem _ h2)

theorem CachesWF_cacheSet (C : Caches) (c : CName) (k : CKey) (v : CVal)
    (h : CachesWF C) : CachesWF (cacheSet C c k v) := by
  intro p hp
  rcases mem_alUpdate hp with h1 | h1
  · subst h1
    refine alUpdate_map_fst_nodup _ _ _ ?_
    cases hl : alLookup C c with
    | none => simp
    | some d =>
      simpa using h (c, d) (alLookup_mem hl)
  · exact h p h1

theorem CachesWF_cacheDel (C : Caches) (c : CName) (k : CKey)
    (h : CachesWF C) : CachesWF (cacheDel C c k) := by
  unfold cacheDel
  cases hl : alLookup C c with
  | none => exact h
  | some d =>
    intro p hp
    rcases mem_alUpdate hp with h1 | h1
    · subst h1
      refine alErase_map_fst_nodup _ _ ?_
      simpa using h (c, d) (alLookup_mem hl)
    · exact h p h1

theorem cacheGet_cacheDel_self (C : Caches) (c : CName) (k : CKey)
    (h : CachesWF C) : cacheGet (cacheDel C c k) c k = none := by
  unfold cacheDel
  cases hl : alLookup C c with
  | none =>
    unfold cacheGet
    rw [hl]
  | some d =>
    unfold cacheGet
    rw [alLookup_update_self]
    exact alLookup_erase_self_of_nodup d k (by simpa using h (c, d) (alLookup_mem hl))

theorem cacheGet_cacheDel_ne (C : Caches) (c : CName) (k : CKey)
    (cc : CName) (kk : CKey) (h : ¬ (cc = c ∧ kk = k)) :
    cacheGet (cacheDel C c k) cc kk = cacheGet C cc kk := by
  unfold cacheDel
  cases hl : alLookup C c with
  | none => rfl
  | some d =>
    by_cases hc : cc = c
    · subst hc
      have hk : kk ≠ k := fun he => h ⟨rfl, he⟩
      unfold cacheGet
      rw [alLookup_update_self, hl]
      exact alLookup_erase_ne d k kk (fun he => hk he.symm)
    · unfold cacheGet
      rw [alLookup_update_ne _ _ _ _ (fun he => hc he.symm)]

theorem applyEntry_wf (C : Caches) (e : JEntry) (h : CachesWF C) :
    CachesWF (applyEntry C e) := by
  unfold applyEntry
  cases e.2.2.1 with
  | some p => exact CachesWF_cacheSet _ _ _ _ h
  | none => exact CachesWF_cacheDel _ _ _ h

/-- With well-formed caches, undoing one journal entry is a pointwise
overwrite with the recorded previous value. -/
theorem applyEntry_pointwise (C : Caches) (e : JEntry) (h : CachesWF C)
    (c : CName) (k : CKey) :
    cacheGet (applyEntry C e) c k =
      if c = e.1 ∧ k = e.2.1 then e.2.2.1 else cacheGet C c k := by
  unfold applyEntry
  by_cases hck : c = e.1 ∧ k = e.2.1
  · rw [if_pos hck]
    obtain ⟨h1, h2⟩ := hck
    subst h1
    subst h2
    cases hp : e.2.2.1 with
    | some p => exact cacheGet_cacheSet_self _ _ _ _
    | none => exact cacheGet_cacheDel_self _ _ _ h
  · rw [if_neg hck]
    cases e.2.2.1 with
    | some p => exact cacheGet_cacheSet_ne _ _ _ _ _ _ hck
    | none => exact cacheGet_cacheDel_ne _ _ _ _ _ hck

theorem foldl_applyEntry_wf (ext : List JEntry) (C : Caches) (h : CachesWF C) :
    CachesWF (ext.foldl applyEntry C) := by
  induction ext generalizing C with
  | nil => exact h
  | cons e t ih => exact ih _ (applyEntry_wf C e h)

theorem foldl_applyEntry_congr (ext : List JEntry) (C D : Caches)
    (hC : CachesWF C) (hD : CachesWF D) (h : CachesEqv C D) :
    CachesEqv (ext.foldl applyEntry C) (ext.foldl applyEntry D) := by
  induction ext generalizing C D with
  | nil => exact h
  | cons e t ih =>
    refine ih _ _ (applyEntry_wf C e hC) (applyEntry_wf D e hD) ?_
    intro c k
    rw [applyEntry_pointwise C e hC, applyEntry_pointwise D e hD]
    by_cases hck : c = e.1 ∧ k = e.2.1
    · rw [if_pos hck, if_pos hck]
    · rw [if_neg hck, if_neg hck]
      exact h c k

theorem undoInv_refl (s : BState) (h : CachesWF s.caches) : UndoInv s s :=
  ⟨h, ⟨[], rfl, fun _ _ => rfl⟩, ⟨[], by simp⟩, ⟨[], by simp⟩, rfl, rfl⟩

theorem undoInv_saj (s0 s1 : BState) (c : CName) (k : CKey) (v : CVal)
    (h : UndoInv s0 s1) : UndoInv s0 (set_and_journal s1 c k v) := by
  obtain ⟨hwf, ⟨ext, hj, heqv⟩, hsui, hlog, htrie, htxs⟩ := h
  by_cases hp : cacheGet s1.caches c k = some v
  · rw [set_and_journal, if_pos hp]
    exact ⟨hwf, ⟨ext, hj, heqv⟩, hsui, hlog, htrie, htxs⟩
  · rw [set_and_journal_of_ne s1 c k v hp]
    refine ⟨CachesWF_cacheSet _ _ _ _ hwf,
      ⟨(c, k, cacheGet s1.caches c k, v) :: ext, ?_, ?_⟩, hsui, hlog, htrie, htxs⟩
    · show (c, k, cacheGet s1.caches c k, v) :: s1.journal =
        (c, k, cacheGet s1.caches c k, v) :: (ext ++ s0.journal)
      rw [hj]
    · show CachesEqv (ext.foldl applyEntry
        (applyEntry (cacheSet s1.caches c k v) (c, k, cacheGet s1.caches c k, v)))
        s0.caches
      have hwf2 : CachesWF (applyEntry (cacheSet s1.caches c k v)
          (c, k, cacheGet s1.caches c k, v)) :=
        applyEntry_wf _ _ (CachesWF_cacheSet _ _ _ _ hwf)
      have hstep : CachesEqv (applyEntry (cacheSet s1.caches c k v)
          (c, k, cacheGet s1.caches c k, v)) s1.caches := by
        intro c2 k2
        rw [applyEntry_pointwise _ _ (CachesWF_cacheSet _ _ _ _ hwf)]
        by_cases hck : c2 = c ∧ k2 = k
        · rw [if_pos hck]
          obtain ⟨e1, e2⟩ := hck
          subst e1
          subst e2
          rfl
        · rw [if_neg hck]
          exact cacheGet_cacheSet_ne _ _ _ _ _ _ hck
      intro cc kk
      exact ((foldl_applyEntry_congr ext _ _ hwf2 hwf hstep) cc kk).trans (heqv cc kk)

theorem undoInv_nscreate (s0 s1 : BState) (a : Addr)
    (h : UndoInv s0 s1) (hns : dictMem s1.caches (CName.storageOf a) = false) :
    UndoInv s0 { s1 with caches := alUpdate s1.caches (CName.storageOf a) [] } := by
  obtain ⟨hwf, ⟨ext, hj, heqv⟩, hsui, hlog, htrie, htxs⟩ := h
  have hwf2 : CachesWF (alUpdate s1.caches (CName.storageOf a) []) := by
    intro p hp
    rcases mem_alUpdate hp with h1 | h1
    · subst h1
      simp
    · exact hwf p h1
  have hnone : alLookup s1.caches (CName.storageOf a) = none := by
    revert hns
    unfold dictMem
    cases alLookup s1.caches (CName.storageOf a) with
    | none => intro _; rfl
    | some d => intro hns; exact absurd hns (by simp)
  have heq : CachesEqv (alUpdate s1.caches (CName.storageOf a) []) s1.caches := by
    intro c k
    by_cases hc : c = CName.storageOf a
    · subst hc
      unfold cacheGet
      rw [alLookup_update_self, hnone]
      rfl
    · exact cacheGet_alUpdate_ne _ _ _ _ _ (fun he => hc he.symm)
  refine ⟨hwf2, ⟨ext, hj, ?_⟩, hsui, hlog, htrie, htxs⟩
  intro cc kk
  exact ((foldl_applyEntry_congr ext _ _ hwf2 hwf heq) cc kk).trans (heqv cc kk)

theorem undoInv_step (s0 s1 : BState) (m : Mutation) (h : UndoInv s0 s1) :
    UndoInv s0 (applyMutation s1 m) := by
  cases m with
  | setField a f v =>
    exact undoInv_saj _ _ _ _ _ (undoInv_saj _ _ _ _ _ h)
  | setStorageData a i v =>
    show UndoInv s0 (set_storage_data s1 a i v)
    unfold set_storage_data
    by_cases hns : dictMem s1.caches (CName.storageOf a) = true
    · simp only [hns, if_true]
      exact undoInv_saj _ _ _ _ _ h
    · have hns2 : dictMem s1.caches (CName.storageOf a) = false :=
        Bool.eq_false_iff.mpr hns
      simp only [hns2, Bool.false_eq_true, if_false]
      exact undoInv_saj _ _ _ _ _ (undoInv_saj _ _ _ _ _
        (undoInv_nscreate _ _ _ h hns2))
  | addLog l =>
    obtain ⟨hwf, hjnl, hsui, ⟨t, hl⟩, htrie, htxs⟩ := h
    refine ⟨hwf, hjnl, hsui, ⟨t ++ [l], ?_⟩, htrie, htxs⟩
    show s1.logs ++ [l] = s0.logs ++ (t ++ [l])
    rw [hl, List.append_assoc]
  | addSuicide a =>
    obtain ⟨hwf, hjnl, ⟨t, hs⟩, hlog, htrie, htxs⟩ := h
    refine ⟨hwf, hjnl, ⟨t ++ [a], ?_⟩, hlog, htrie, htxs⟩
    show s1.suicides ++ [a] = s0.suicides ++ (t ++ [a])
    rw [hs, List.append_assoc]
  | setRefunds n =>
    obtain ⟨hwf, hjnl, hsui, hlog, htrie, htxs⟩ := h
    exact ⟨hwf, hjnl, hsui, hlog, htrie, htxs⟩
  | setGasUsed n =>
    obtain ⟨hwf, hjnl, hsui, hlog, htrie, htxs⟩ := h
    exact ⟨hwf, hjnl, hsui, hlog, htrie, htxs⟩
  | setEtherDelta d =>
    obtain ⟨hwf, hjnl, hsui, hlog, htrie, htxs⟩ := h
    exact ⟨hwf, hjnl, hsui, hlog, htrie, htxs⟩

theorem undoInv_applyMutations (s0 s1 : BState) (M : List Mutation)
    (h : UndoInv s0 s1) : UndoInv s0 (applyMutations s1 M) := by
  induction M generalizing s1 with
  | nil => exact h
  | cons m t ih => exact ih _ (undoInv_step s0 s1 m h)

theorem undoJournal_append (ext j0 : List JEntry) (C : Caches) :
    undoJournal (ext ++ j0) j0.length C = (j0, ext.foldl applyEntry C) := by
  induction ext generalizing C with
  | nil =>
    cases j0 with
    | nil => rfl
    | cons e t =>
      show undoJournal (e :: t) (e :: t).length C = (e :: t, C)
      simp only [undoJournal]
      rw [if_pos le_rfl]
  | cons e t ih =>
    show undoJournal (e :: (t ++ j0)) j0.length C = (j0, (e :: t).foldl applyEntry C)
    simp only [undoJournal]
    rw [if_neg (by simp only [List.length_cons, List.length_append]; omega)]
    exact ih (applyEntry C e)

/-- C1: for every sequence of cache mutations after a snapshot, `revert`
restores every cache entry (re-inserting the recorded previous value or
removing the entry), truncates suicides and logs to their recorded lengths,
and resets refunds, gas_used, ether_delta, transaction_count, the
transactions trie and the state trie to their snapshot values.  The cache
well-formedness hypothesis (distinct keys inside each inner dict) holds of
every Python dict. -/
theorem claim_C1_journal_roundtrip (s : BState) (M : List Mutation)
    (hwf : CachesWF s.caches) :
    (∀ c k, cacheGet (revert (applyMutations s M) (snapshot s)).caches c k =
      cacheGet s.caches c k) ∧
    (revert (applyMutations s M) (snapshot s)).journal = s.journal ∧
    (revert (applyMutations s M) (snapshot s)).suicides = s.suicides ∧
    (revert (applyMutations s M) (snapshot s)).logs = s.logs ∧
    (revert (applyMutations s M) (snapshot s)).refunds = s.refunds ∧
    (revert (applyMutations s M) (snapshot s)).gas_used = s.gas_used ∧
    (revert (applyMutations s M) (snapshot s)).ether_delta = s.ether_delta ∧
    (revert (applyMutations s M) (snapshot s)).transaction_count =
      s.transaction_count ∧
    (revert (applyMutations s M) (snapshot s)).txs = s.txs ∧
    (revert (applyMutations s M) (snapshot s)).stateTrie = s.stateTrie := by
  obtain ⟨hwf1, ⟨ext, hj, heqv⟩, ⟨ts, hs⟩, ⟨tl, hl⟩, htrie, htxs⟩ :=
    undoInv_applyMutations s s M (undoInv_refl s hwf)
  have hundo : undoJournal (applyMutations s M).journal (snapshot s).journal_size
      (applyMutations s M).caches =
      (s.journal, ext.foldl applyEntry (applyMutations s M).caches) := by
    rw [hj]
    exact undoJournal_append ext s.journal _
  refine ⟨?_, ?_, ?_, ?_, rfl, rfl, rfl, rfl, rfl, rfl⟩
  · intro c k
    show cacheGet (undoJournal (applyMutations s M).journal
      (snapshot s).journal_size (applyMutations s M).caches).2 c k =
      cacheGet s.caches c k
    rw [hundo]
    exact heqv c k
  · show (undoJournal (applyMutations s M).journal
      (snapshot s).journal_size (applyMutations s M).caches).1 = s.journal
    rw [hundo]
  · show (applyMutations s M).suicides.take (snapshot s).suicides_size = s.suicides
    rw [hs]
    exact List.take_left _ _
  · show (applyMutations s M).logs.take (snapshot s).logs_size = s.logs
    rw [hl]
    exact List.take_left _ _

/-- C1 witness: the round trip at a concrete state and mutation sequence. -/
theorem claim_C1_journal_roundtrip_witness :
    (revert (applyMutations bstate0 muts0) (snapshot bstate0)).journal =
      bstate0.journal ∧
    cacheGet (revert (applyMutations bstate0 muts0) (snapshot bstate0)).caches
      CName.balance (CKey.addr [1]) =
      cacheGet bstate0.caches CName.balance (CKey.addr [1]) ∧
    cacheGet (revert (applyMutations bstate0 muts0) (snapshot bstate0)).caches
      (CName.storageOf [1]) (CKey.idx 0) =
      cacheGet bstate0.caches (CName.storageOf [1]) (CKey.idx 0) ∧
    (revert (applyMutations bstate0 muts0) (snapshot bstate0)).logs =
      bstate0.logs ∧
    (revert (applyMutations bstate0 muts0) (snapshot bstate0)).refunds =
      bstate0.refunds := by
  have hwf0 : CachesWF bstate0.caches := by
    intro p hp
    have hp2 : p ∈ init_caches := hp
    rw [init_caches] at hp2
    simp only [List.mem_cons, List.not_mem_nil, or_false] at hp2
    rcases hp2 with h | h | h | h | h <;> subst h <;> simp
  have h := claim_C1_journal_roundtrip bstate0 muts0 hwf0
  exact ⟨h.2.1, h.1 _ _, h.1 _ _, h.2.2.2.1, h.2.2.2.2.1⟩

theorem set_and_journal_wf (s : BState) (c : CName) (k : CKey) (v : CVal)
    (h : CachesWF s.caches) : CachesWF (set_and_journal s c k v).caches := by
  unfold set_and_journal
  by_cases hp : cacheGet s.caches c k = some v
  · rw [if_pos hp]
    exact h
  · rw [if_neg hp]
    exact CachesWF_cacheSet _ _ _ _ h

theorem get_acct_item_wf (s : BState) (a : Addr) (f : AcctFld)
    (h : CachesWF s.caches) : CachesWF (get_acct_item s a f).2.caches := by
  unfold get_acct_item
  cases cacheGet s.caches f.toCName (CKey.addr a) with
  | none => exact CachesWF_cacheSet _ _ _ _ h
  | some v => exact h

theorem delta_item_wf (s : BState) (a : Addr) (f : AcctFld) (d : Int)
    (h : CachesWF s.caches) : CachesWF (delta_item s a f d).2.caches := by
  rw [delta_item_eq]
  by_cases hlt : ((get_acct_item s a f).1.toNat : Int) + d < 0
  · rw [if_pos hlt]
    exact get_acct_item_wf s a f h
  · rw [if_neg hlt]
    show CachesWF (set_acct_item (get_acct_item s a f).2 a f _).caches
    unfold set_acct_item
    exact set_and_journal_wf _ _ _ _ (set_and_journal_wf _ _ _ _
      (get_acct_item_wf s a f h))

theorem balTyped_delta_balance (s : BState) (a : Addr) (d : Int)
    (h0 : 0 ≤ ((get_acct_item s a AcctFld.balance).1.toNat : Int) + d)
    (hty : BalTyped s.caches) : BalTyped (delta_balance s a d).2.caches := by
  intro k v hv
  have hv2 : cacheGet (delta_item s a AcctFld.balance d).2.caches CName.balance k =
      some v := hv
  rw [delta_item_caches_after s a .balance d h0] at hv2
  by_cases h1 : CName.balance = AcctFld.balance.toCName ∧ k = CKey.addr a
  · rw [if_pos h1] at hv2
    exact ⟨_, (Option.some_injective _ hv2).symm⟩
  · rw [if_neg h1, if_neg (fun hp => CName.noConfusion hp.1)] at hv2
    exact hty k v hv2

/-- One successful nonnegative `delta_balance`: the target balance grows by
the delta, everything else (balances, `'all'` marks, the trie) is framed,
and the cache invariants are preserved. -/
theorem delta_balance_nonneg_spec (s : BState) (a : Addr) (d : Int) (hd : 0 ≤ d)
    (hbound : get_balance s a + d.toNat < 2 ^ 256)
    (hwf : CachesWF s.caches) (hty : BalTyped s.caches) :
    (delta_balance s a d).1 = true ∧
    get_balance (delta_balance s a d).2 a = get_balance s a + d.toNat ∧
    (∀ x : Addr, x ≠ a → get_balance (delta_balance s a d).2 x = get_balance s x) ∧
    cacheGet (delta_balance s a d).2.caches CName.all (CKey.addr a) =
      some CVal.tt ∧
    (∀ x : Addr, x ≠ a →
      cacheGet (delta_balance s a d).2.caches CName.all (CKey.addr x) =
        cacheGet s.caches CName.all (CKey.addr x)) ∧
    (delta_balance s a d).2.stateTrie = s.stateTrie ∧
    CachesWF (delta_balance s a d).2.caches ∧
    BalTyped (delta_balance s a d).2.caches := by
  have hcur : (get_acct_item s a AcctFld.balance).1.toNat = get_balance s a := rfl
  have h0 : 0 ≤ ((get_acct_item s a AcctFld.balance).1.toNat : Int) + d := by
    omega
  have hafter := delta_item_caches_after s a .balance d h0
  have htrie := delta_item_stateTrie s a .balance d
  have hval : (((get_acct_item s a AcctFld.balance).1.toNat : Int) + d).toNat % 2 ^ 256
      = get_balance s a + d.toNat := by
    have h1 : (((get_acct_item s a AcctFld.balance).1.toNat : Int) + d).toNat
        = get_balance s a + d.toNat := by
      rw [hcur] at h0 ⊢
      omega
    rw [h1]
    exact Nat.mod_eq_of_lt hbound
  unfold delta_balance
  refine ⟨?_, ?_, ?_, ?_, ?_, htrie, delta_item_wf s a .balance d hwf,
    balTyped_delta_balance s a d h0 hty⟩
  · rw [delta_item_eq, if_neg (not_lt.mpr h0)]
  · refine get_balance_eq_of_cache _ a _ ?_
    rw [hafter CName.balance (CKey.addr a), if_pos ⟨rfl, rfl⟩, hval]
  · intro x hx
    refine get_balance_congr _ _ x ?_ htrie
    rw [hafter CName.balance (CKey.addr x),
      if_neg (fun hp => hx (by simpa using hp.2)),
      if_neg (fun hp => CName.noConfusion hp.1)]
  · rw [hafter CName.all (CKey.addr a),
      if_neg (fun hp => CName.noConfusion hp.1), if_pos ⟨rfl, rfl⟩]
  · intro x hx
    rw [hafter CName.all (CKey.addr x),
      if_neg (fun hp => CName.noConfusion hp.1),
      if_neg (fun hp => hx (by simpa using hp.2))]

theorem insertSorted_perm (a : Addr) (l : List Addr) :
    List.Perm (insertSorted a l) (a :: l) := by
  induction l with
  | nil => exact List.Perm.refl _
  | cons b t ih =>
    rw [insertSorted]
    by_cases h : lexLe a b = true
    · rw [if_pos h]
    · rw [if_neg h]
      exact (ih.cons b).trans (List.Perm.swap a b t)

theorem sortAddrs_perm (l : List Addr) : List.Perm (sortAddrs l) l := by
  induction l with
  | nil => exact List.Perm.refl _
  | cons a t ih => exact (insertSorted_perm a (sortAddrs t)).trans (ih.cons a)

theorem addrKeys_nodup (d : List (CKey × CVal)) (h : (d.map Prod.fst).Nodup) :
    (d.filterMap (fun kv => match kv.1 with
      | CKey.addr a => some a
      | _ => none)).Nodup := by
  induction d with
  | nil => simp
  | cons hd t ih =>
    obtain ⟨k, v⟩ := hd
    simp only [List.map_cons, List.nodup_cons] at h
    rw [List.filterMap_cons]
    cases k with
    | idx i => exact ih h.2
    | addr a =>
      refine List.nodup_cons.mpr ⟨?_, ih h.2⟩
      intro hmem
      rcases List.mem_filterMap.mp hmem with ⟨⟨k2, v2⟩, hk2mem, hk2⟩
      cases k2 with
      | idx i => exact Option.noConfusion hk2
      | addr a2 =>
        have ha2 : a2 = a := by simpa using hk2
        subst ha2
        exact h.1 (List.mem_map.mpr ⟨(CKey.addr a2, v2), hk2mem, rfl⟩)

theorem all_addrs_nodup (s : BState) (hwf : CachesWF s.caches) :
    (all_addrs s).Nodup := by
  unfold all_addrs
  refine ((sortAddrs_perm _).nodup_iff).mpr ?_
  cases hall : alLookup s.caches CName.all with
  | none => simp [hall]
  | some d =>
    exact addrKeys_nodup d (hwf (CName.all, d) (alLookup_mem hall))

theorem all_addrs_mem (s : BState) (a : Addr)
    (h : cacheGet s.caches CName.all (CKey.addr a) = some CVal.tt) :
    a ∈ all_addrs s := by
  unfold all_addrs
  refine ((sortAddrs_perm _).mem_iff).mpr ?_
  rw [cacheGet] at h
  cases hall : alLookup s.caches CName.all with
  | none => rw [hall] at h; exact Option.noConfusion h
  | some d =>
    rw [hall] at h
    exact List.mem_filterMap.mpr ⟨(CKey.addr a, CVal.tt), alLookup_mem h, rfl⟩

theorem applyFld_balance_frame (C : Caches) (a : Addr) (acct : AccountM)
    (f : AcctFld) (hf : f ≠ AcctFld.balance) :
    (applyFld C a acct f).balance = acct.balance := by
  unfold applyFld
  cases cacheGet C f.toCName (CKey.addr a) with
  | none => rfl
  | some v =>
    cases f with
    | balance => exact absurd rfl hf
    | nonce => cases v <;> rfl
    | code => cases v <;> rfl
    | storage => cases v <;> rfl

theorem applyFld_balance_val (C : Caches) (a : Addr) (acct : AccountM) :
    (applyFld C a acct AcctFld.balance).balance =
      match cacheGet C CName.balance (CKey.addr a) with
      | some (CVal.num n) => n
      | some _ => acct.balance
      | none => acct.balance := by
  unfold applyFld
  simp only [AcctFld.toCName]
  cases cacheGet C CName.balance (CKey.addr a) with
  | none => rfl
  | some v => cases v <;> rfl

theorem commit_addr_balance (s : BState) (t : List (Addr × AccountM)) (a : Addr) :
    ((alLookup (commit_addr s t a) a).getD blank_account).balance =
      match cacheGet s.caches CName.balance (CKey.addr a) with
      | some (CVal.num n) => n
      | some _ => ((alLookup t a).getD blank_account).balance
      | none => ((alLookup t a).getD blank_account).balance := by
  simp only [commit_addr]
  rw [alLookup_update_self, Option.getD_some]
  show (applyFld s.caches a (applyFld s.caches a (applyFld s.caches a
    (applyFld s.caches a ((alLookup t a).getD blank_account) .balance) .nonce)
    .code) .storage).balance = _
  rw [applyFld_balance_frame _ _ _ AcctFld.storage (by decide),
    applyFld_balance_frame _ _ _ AcctFld.code (by decide),
    applyFld_balance_frame _ _ _ AcctFld.nonce (by decide),
    applyFld_balance_val]

theorem foldl_commit_frame (s : BState) (addrs : List Addr)
    (t : List (Addr × AccountM)) (a : Addr) (ha : a ∉ addrs) :
    alLookup (addrs.foldl (commit_addr s) t) a = alLookup t a := by
  induction addrs generalizing t with
  | nil => rfl
  | cons b rest ih =>
    rw [List.foldl_cons, ih _ (fun h => ha (List.mem_cons_of_mem _ h))]
    simp only [commit_addr]
    exact alLookup_update_ne _ _ _ _
      (fun h => ha (h ▸ List.mem_cons_self _ _))

theorem commit_addr_lookup_congr (s : BState)
    (t1 t2 : List (Addr × AccountM)) (a : Addr)
    (h : alLookup t1 a = alLookup t2 a) :
    alLookup (commit_addr s t1 a) a = alLookup (commit_addr s t2 a) a := by
  simp only [commit_addr]
  rw [alLookup_update_self, alLookup_update_self, h]

theorem foldl_commit_at (s : BState) (addrs : List Addr)
    (t : List (Addr × AccountM)) (a : Addr)
    (hnd : addrs.Nodup) (ha : a ∈ addrs) :
    alLookup (addrs.foldl (commit_addr s) t) a =
      alLookup (commit_addr s t a) a := by
  induction addrs generalizing t with
  | nil => cases ha
  | cons b rest ih =>
    rw [List.foldl_cons]
    rcases List.mem_cons.mp ha with hab | harest
    · subst hab
      exact foldl_commit_frame s rest _ a (List.nodup_cons.mp hnd).1
    · have hba : b ≠ a := fun h => (List.nodup_cons.mp hnd).1 (h ▸ harest)
      rw [ih _ (List.nodup_cons.mp hnd).2 harest]
      have hl : alLookup (commit_addr s t b) a = alLookup t a := by
        simp only [commit_addr]
        exact alLookup_update_ne _ _ _ _ hba
      exact commit_addr_lookup_congr s _ t a hl

theorem commit_get_balance (s : BState) (a : Addr)
    (hwf : CachesWF s.caches) (hty : BalTyped s.caches)
    (hmem : cacheGet s.caches CName.all (CKey.addr a) = some CVal.tt) :
    get_balance (commit_state s) a = get_balance s a := by
  by_cases hj : s.journal = []
  · rw [commit_state_nil_journal s hj]
  · have h1 : get_balance (commit_state s) a =
        ((alLookup ((all_addrs s).foldl (commit_addr s) s.stateTrie) a).getD
          blank_account).balance := by
      rw [commit_state, if_neg hj]
      unfold get_balance
      rw [get_acct_item_miss
        { s with stateTrie := (all_addrs s).foldl (commit_addr s) s.stateTrie,
                 caches := reset_caches, journal := [] } a .balance rfl]
      rfl
    rw [h1, foldl_commit_at s (all_addrs s) s.stateTrie a
      (all_addrs_nodup s hwf) (all_addrs_mem s a hmem), commit_addr_balance]
    cases hb : cacheGet s.caches CName.balance (CKey.addr a) with
    | none =>
      show ((alLookup s.stateTrie a).getD blank_account).balance = get_balance s a
      unfold get_balance
      rw [get_acct_item_miss s a .balance hb]
      rfl
    | some v =>
      obtain ⟨n, hn⟩ := hty _ _ hb
      subst hn
      rw [get_balance_eq_of_cache s a n hb]

theorem apply_uncle_reward_caches (number : Nat) (st : BState) (u : UncleM) :
    (apply_uncle_reward number st u).caches =
      (delta_balance st u.coinbase (uncle_reward number u)).2.caches := rfl

theorem apply_uncle_reward_stateTrie (number : Nat) (st : BState) (u : UncleM) :
    (apply_uncle_reward number st u).stateTrie =
      (delta_balance st u.coinbase (uncle_reward number u)).2.stateTrie := rfl

theorem apply_uncle_reward_get_balance (number : Nat) (st : BState) (u : UncleM)
    (x : Addr) :
    get_balance (apply_uncle_reward number st u) x =
      get_balance (delta_balance st u.coinbase (uncle_reward number u)).2 x :=
  get_balance_congr _ _ x (by rw [apply_uncle_reward_caches])
    (by rw [apply_uncle_reward_stateTrie])

/-- The uncle loop of `finalize`, one conjunction: invariants are preserved,
the trie is untouched, untouched addresses are framed, and each uncle's
coinbase is credited with its reward and marked touched. -/
theorem uncle_fold_spec (number : Nat) (uncles : List UncleM) (st : BState)
    (hwf : CachesWF st.caches) (hty : BalTyped st.caches)
    (hnd : (uncles.map UncleM.coinbase).Nodup)
    (hrw : ∀ u ∈ uncles, 0 ≤ uncle_reward number u)
    (hbnd : ∀ u ∈ uncles,
      get_balance st u.coinbase + (uncle_reward number u).toNat < 2 ^ 256) :
    CachesWF (uncles.foldl (apply_uncle_reward number) st).caches ∧
    BalTyped (uncles.foldl (apply_uncle_reward number) st).caches ∧
    (uncles.foldl (apply_uncle_reward number) st).stateTrie = st.stateTrie ∧
    (∀ x : Addr, x ∉ uncles.map UncleM.coinbase →
      get_balance (uncles.foldl (apply_uncle_reward number) st) x =
        get_balance st x ∧
      cacheGet (uncles.foldl (apply_uncle_reward number) st).caches CName.all
          (CKey.addr x) =
        cacheGet st.caches CName.all (CKey.addr x)) ∧
    (∀ u ∈ uncles,
      get_balance (uncles.foldl (apply_uncle_reward number) st) u.coinbase =
        get_balance st u.coinbase + (uncle_reward number u).toNat ∧
      cacheGet (uncles.foldl (apply_uncle_reward number) st).caches CName.all
          (CKey.addr u.coinbase) = some CVal.tt) := by
  induction uncles generalizing st with
  | nil =>
    exact ⟨hwf, hty, rfl, fun x _ => ⟨rfl, rfl⟩,
      fun u hu => absurd hu (List.not_mem_nil u)⟩
  | cons u rest ih =>
    have hu0 : u ∈ u :: rest := List.mem_cons_self _ _
    obtain ⟨hsuc, hbal, hfr, hall, hallfr, htrie, hwf1, hty1⟩ :=
      delta_balance_nonneg_spec st u.coinbase (uncle_reward number u)
        (hrw u hu0) (hbnd u hu0) hwf hty
    simp only [List.map_cons, List.nodup_cons] at hnd
    have hco : u.coinbase ∉ rest.map UncleM.coinbase := hnd.1
    have hwf' : CachesWF (apply_uncle_reward number st u).caches := by
      rw [apply_uncle_reward_caches]; exact hwf1
    have hty' : BalTyped (apply_uncle_reward number st u).caches := by
      rw [apply_uncle_reward_caches]; exact hty1
    have hne : ∀ u2 ∈ rest, u2.coinbase ≠ u.coinbase := fun u2 hu2 he =>
      hco (he ▸ List.mem_map.mpr ⟨u2, hu2, rfl⟩)
    have hbnd' : ∀ u2 ∈ rest,
        get_balance (apply_uncle_reward number st u) u2.coinbase +
          (uncle_reward number u2).toNat < 2 ^ 256 := by
      intro u2 hu2
      rw [apply_uncle_reward_get_balance, hfr u2.coinbase (hne u2 hu2)]
      exact hbnd u2 (List.mem_cons_of_mem u hu2)
    obtain ⟨ihwf, ihty, ihtrie, ihfr, ihrest⟩ :=
      ih (apply_uncle_reward number st u) hwf' hty' hnd.2
        (fun u2 hu2 => hrw u2 (List.mem_cons_of_mem u hu2)) hbnd'
    rw [List.foldl_cons]
    refine ⟨ihwf, ihty, ?_, ?_, ?_⟩
    · rw [ihtrie, apply_uncle_reward_stateTrie]
      exact htrie
    · intro x hx
      simp only [List.map_cons, List.mem_cons, not_or] at hx
      refine ⟨?_, ?_⟩
      · rw [(ihfr x hx.2).1, apply_uncle_reward_get_balance]
        exact hfr x hx.1
      · rw [(ihfr x hx.2).2, apply_uncle_reward_caches]
        exact hallfr x hx.1
    · intro u2 hu2
      rcases List.mem_cons.mp hu2 with h2 | h2
      · subst h2
        refine ⟨?_, ?_⟩
        · rw [(ihfr u2.coinbase hco).1, apply_uncle_reward_get_balance]
          exact hbal
        · rw [(ihfr u2.coinbase hco).2, apply_uncle_reward_caches]
          exact hall
      · refine ⟨?_, (ihrest u2 h2).2⟩
        rw [(ihrest u2 h2).1, apply_uncle_reward_get_balance,
          hfr u2.coinbase (hne u2 h2)]

/-- C8: reward finalization arithmetic.  `finalize` credits the block
coinbase with exactly `BLOCK_REWARD + NEPHEW_REWARD * |uncles|` and each
uncle's coinbase with the integer-truncated
`BLOCK_REWARD * (UNCLE_DEPTH_PENALTY_FACTOR + uncle.number - number) /
UNCLE_DEPTH_PENALTY_FACTOR`; `BLOCK_REWARD = 1500 * 10^15` wei,
`NEPHEW_REWARD = BLOCK_REWARD / 32`, and a block at number 10 with an uncle
at number 8 pays that uncle exactly `1125 * 10^15` wei.  Stated for distinct
uncle coinbases that differ from the block coinbase, nonnegative uncle
rewards, balances below the u256 bound, and well-formed, integer-valued
balance caches. -/
theorem claim_C8_finalize (s : BState) (coinbase : Addr) (number : Nat)
    (uncles : List UncleM)
    (hwf : CachesWF s.caches) (hty : BalTyped s.caches)
    (hnd : (uncles.map UncleM.coinbase).Nodup)
    (hcb : coinbase ∉ uncles.map UncleM.coinbase)
    (hrw : ∀ u ∈ uncles, 0 ≤ uncle_reward number u)
    (hb1 : get_balance s coinbase +
      (BLOCK_REWARD + NEPHEW_REWARD * uncles.length) < 2 ^ 256)
    (hb2 : ∀ u ∈ uncles,
      get_balance s u.coinbase + (uncle_reward number u).toNat < 2 ^ 256) :
    get_balance (finalize s coinbase number uncles) coinbase =
      get_balance s coinbase + (BLOCK_REWARD + NEPHEW_REWARD * uncles.length) ∧
    (∀ u ∈ uncles, get_balance (finalize s coinbase number uncles) u.coinbase =
      get_balance s u.coinbase + (uncle_reward number u).toNat) ∧
    BLOCK_REWARD = 1500 * 10 ^ 15 ∧ NEPHEW_REWARD = BLOCK_REWARD / 32 ∧
    uncle_reward 10 ⟨8, []⟩ = 1125 * 10 ^ 15 := by
  have hd0 : (0 : Int) ≤
      ((BLOCK_REWARD + NEPHEW_REWARD * uncles.length : Nat) : Int) :=
    Int.natCast_nonneg _
  obtain ⟨dsuc, dbal, dfr, dall, dallfr, dtrie, dwf, dty⟩ :=
    delta_balance_nonneg_spec s coinbase
      ((BLOCK_REWARD + NEPHEW_REWARD * uncles.length : Nat) : Int)
      hd0 (by simpa using hb1) hwf hty
  let d : Nat := BLOCK_REWARD + NEPHEW_REWARD * uncles.length
  let s1 : BState := (delta_balance s coinbase (d : Int)).2
  let s2 : BState := { s1 with ether_delta := s1.ether_delta + (d : Int) }
  let s3 : BState := uncles.foldl (apply_uncle_reward number) s2
  have hfin : finalize s coinbase number uncles = commit_state s3 := rfl
  have hs2b : ∀ x : Addr, get_balance s2 x = get_balance s1 x := fun x =>
    get_balance_congr _ _ x rfl rfl
  have dbal1 : get_balance s1 coinbase = get_balance s coinbase + d := by
    have h := dbal
    rw [Int.toNat_natCast] at h
    exact h
  have dfr1 : ∀ x : Addr, x ≠ coinbase → get_balance s1 x = get_balance s x :=
    dfr
  have dall1 : cacheGet s2.caches CName.all (CKey.addr coinbase) =
      some CVal.tt := dall
  have dwf2 : CachesWF s2.caches := dwf
  have dty2 : BalTyped s2.caches := dty
  have hbnd2 : ∀ u ∈ uncles,
      get_balance s2 u.coinbase + (uncle_reward number u).toNat < 2 ^ 256 := by
    intro u hu
    have hne : u.coinbase ≠ coinbase := fun he =>
      hcb (he ▸ List.mem_map.mpr ⟨u, hu, rfl⟩)
    rw [hs2b u.coinbase, dfr1 u.coinbase hne]
    exact hb2 u hu
  obtain ⟨fwf, fty, ftrie, ffr, fper⟩ :=
    uncle_fold_spec number uncles s2 dwf2 dty2 hnd hrw hbnd2
  have fwf3 : CachesWF s3.caches := fwf
  have fty3 : BalTyped s3.caches := fty
  refine ⟨?_, ?_, rfl, rfl, by decide⟩
  · have hallc : cacheGet s3.caches CName.all (CKey.addr coinbase) =
        some CVal.tt := ((ffr coinbase hcb).2).trans dall1
    calc get_balance (finalize s coinbase number uncles) coinbase
        = get_balance (commit_state s3) coinbase := by rw [hfin]
      _ = get_balance s3 coinbase :=
          commit_get_balance s3 coinbase fwf3 fty3 hallc
      _ = get_balance s2 coinbase := (ffr coinbase hcb).1
      _ = get_balance s1 coinbase := hs2b coinbase
      _ = get_balance s coinbase +
          (BLOCK_REWARD + NEPHEW_REWARD * uncles.length) := dbal1
  · intro u hu
    have hne : u.coinbase ≠ coinbase := fun he =>
      hcb (he ▸ List.mem_map.mpr ⟨u, hu, rfl⟩)
    have hallu : cacheGet s3.caches CName.all (CKey.addr u.coinbase) =
        some CVal.tt := (fper u hu).2
    calc get_balance (finalize s coinbase number uncles) u.coinbase
        = get_balance (commit_state s3) u.coinbase := by rw [hfin]
      _ = get_balance s3 u.coinbase :=
          commit_get_balance s3 u.coinbase fwf3 fty3 hallu
      _ = get_balance s2 u.coinbase + (uncle_reward number u).toNat :=
          (fper u hu).1
      _ = get_balance s u.coinbase + (uncle_reward number u).toNat := by
          rw [hs2b u.coinbase, dfr1 u.coinbase hne]

/-- C8 witness: the theorem applied at a concrete empty-trie state, coinbase
`[1]`, block number 10 and one uncle at number 8 with coinbase `[2]`. -/
theorem claim_C8_finalize_witness :
    get_balance (finalize bstate0 [1] 10 [⟨8, [2]⟩]) [1] =
      get_balance bstate0 [1] + (BLOCK_REWARD + NEPHEW_REWARD * 1) ∧
    get_balance (finalize bstate0 [1] 10 [⟨8, [2]⟩]) [2] =
      get_balance bstate0 [2] + (uncle_reward 10 ⟨8, [2]⟩).toNat := by
  have h := claim_C8_finalize bstate0 [1] 10 [⟨8, [2]⟩]
    (by
      intro p hp
      have hp2 : p ∈ init_caches := hp
      rw [init_caches] at hp2
      simp only [List.mem_cons, List.not_mem_nil, or_false] at hp2
      rcases hp2 with h | h | h | h | h <;> subst h <;> simp)
    (by
      intro k v hkv
      have hkv2 : cacheGet init_caches CName.balance k = some v := hkv
      simp [cacheGet, init_caches, alLookup] at hkv2)
    (by decide) (by decide) (by decide) (by decide) (by decide)
  exact ⟨h.1, (h.2.1 ⟨8, [2]⟩ (by decide)).trans rfl⟩
